import Mathlib

/-!
Verification development for the relaxed-queue simulation repository.

The Rust sources are embedded shallowly:
* `SubQueue`, `DChoiceQueue` come from `d_choice_queue.rs`;
* `PartialQ`, `DRa` come from `d_ra.rs`;
* `StrictQueue`, `ErrorTag` and the drivers `analyze_simple` / `analyze_extra`
  come from `relaxation_simulation.rs`.

The only randomness in the sources is the sampler `subqueue_inds` /
`partial_inds` (backed by `rand::thread_rng`).  It is made explicit here: every
queue operation receives the list of sampled sub-queue indices as an argument,
and the drivers receive an `oracle : Nat → List Nat` giving the sampler result
of the k-th sampler call.  `ValidOracle` states the sampler's postcondition
(nonempty draws of in-range indices).  Fallible code (the Rust `expect`,
`assert!` and panics) is modelled with `Option`, `none` meaning a panic.
-/

set_option maxHeartbeats 1000000

/-- One FIFO shard of `DChoiceQueue` (struct `SubQueue` in `d_choice_queue.rs`):
`head` counts successful dequeues, `tail` counts enqueues, `fifo` holds the
items, front first. -/
structure SubQueue where
  head : Nat
  tail : Nat
  fifo : List Nat
deriving DecidableEq, Repr

/-- `SubQueue::new`. -/
def SubQueue.new : SubQueue := { head := 0, tail := 0, fifo := [] }

/-- `SubQueue::enqueue`: bump `tail`, push the item at the back. -/
def SubQueue.enqueue (s : SubQueue) (item : Nat) : SubQueue :=
  { s with tail := s.tail + 1, fifo := s.fifo ++ [item] }

/-- `SubQueue::dequeue`: pop the front; `head` is incremented only on success. -/
def SubQueue.dequeue (s : SubQueue) : Option Nat × SubQueue :=
  match s.fifo with
  | [] => (none, s)
  | x :: rest => (some x, { s with head := s.head + 1, fifo := rest })

/-- `SubQueue::len`. -/
def SubQueue.len (s : SubQueue) : Nat := s.fifo.length

/-- Rust `Iterator::min_by_key` on a list of indices: the first element among
those with minimal key. -/
def minByKeyFirst (key : Nat → Nat) : List Nat → Option Nat
  | [] => none
  | x :: xs => some (xs.foldl (fun best y => if key y < key best then y else best) x)

/-- Rust `Iterator::max_by_key` on a list of indices: the last element among
those with maximal key. -/
def maxByKeyLast (key : Nat → Nat) : List Nat → Option Nat
  | [] => none
  | x :: xs => some (xs.foldl (fun best y => if key best ≤ key y then y else best) x)

/-- The d-choice relaxed queue (struct `DChoiceQueue` in `d_choice_queue.rs`).
The fields `d` and `uniques` only parameterise the sampler, which is modelled
by the explicit index-list arguments below. -/
structure DChoiceQueue where
  subqueues : List SubQueue
  d : Nat
  uniques : Bool
  progress_heuristic : Bool
  empty_lin : Bool
deriving DecidableEq, Repr

/-- `DChoiceQueue::new`: builds `nbr_subqueues` fresh sub-queues and records the
configuration flags.  The source performs no validation of the arguments. -/
def DChoiceQueue.new (nbr_subqueues d : Nat) (uniques progress_heuristic empty_lin : Bool) :
    DChoiceQueue :=
  { subqueues := List.replicate nbr_subqueues SubQueue.new, d := d, uniques := uniques,
    progress_heuristic := progress_heuristic, empty_lin := empty_lin }

/-- Indexing `self.subqueues[i]` (in-range in all verified uses). -/
def DChoiceQueue.getSub (q : DChoiceQueue) (i : Nat) : SubQueue :=
  q.subqueues.getD i SubQueue.new

/-- In-place update of `self.subqueues[i]`. -/
def DChoiceQueue.setSub (q : DChoiceQueue) (i : Nat) (s : SubQueue) : DChoiceQueue :=
  { q with subqueues := q.subqueues.set i s }

/-- Index selection of `DChoiceQueue::enqueue`: `min_by_key` over the sampled
indices `inds` (the result of `subqueue_inds`, i.e. the sampler randomness made
explicit), keyed by `tail` (progress heuristic) or by `tail - head` (length
heuristic). -/
def DChoiceQueue.chooseEnqueueInd (q : DChoiceQueue) (inds : List Nat) : Option Nat :=
  if q.progress_heuristic then
    minByKeyFirst (fun ind => (q.getSub ind).tail) inds
  else
    minByKeyFirst (fun ind => (q.getSub ind).tail - (q.getSub ind).head) inds

/-- Index selection of `DChoiceQueue::dequeue` and `dequeue_with_info`:
`min_by_key` on `head` (progress heuristic) or `max_by_key` on `tail - head`
(length heuristic). -/
def DChoiceQueue.chooseDequeueInd (q : DChoiceQueue) (inds : List Nat) : Option Nat :=
  if q.progress_heuristic then
    minByKeyFirst (fun ind => (q.getSub ind).head) inds
  else
    maxByKeyLast (fun ind => (q.getSub ind).tail - (q.getSub ind).head) inds

/-- `DChoiceQueue::enqueue`; `none` models the `expect` panic on an empty
sample. -/
def DChoiceQueue.enqueue (q : DChoiceQueue) (inds : List Nat) (item : Nat) :
    Option DChoiceQueue :=
  match q.chooseEnqueueInd inds with
  | none => none
  | some c => some (q.setSub c ((q.getSub c).enqueue item))

/-- Fallback scan of `DChoiceQueue::dequeue`: up to `len - 1` steps of
`ind = (ind + 1) % len`, dequeueing from the first sub-queue with a positive
length. -/
def DChoiceQueue.scanLoop (q : DChoiceQueue) (ind : Nat) : Nat → Option Nat × DChoiceQueue
  | 0 => (none, q)
  | k + 1 =>
    let ind' := (ind + 1) % q.subqueues.length
    if 0 < (q.getSub ind').len then
      let rs := (q.getSub ind').dequeue
      (rs.1, q.setSub ind' rs.2)
    else q.scanLoop ind' k

/-- `DChoiceQueue::dequeue`: try the chosen sub-queue; on emptiness either run
the cyclic fallback scan (`empty_lin`) or report `none` immediately. -/
def DChoiceQueue.dequeue (q : DChoiceQueue) (inds : List Nat) :
    Option (Option Nat × DChoiceQueue) :=
  match q.chooseDequeueInd inds with
  | none => none
  | some c =>
    let rs := (q.getSub c).dequeue
    let q0 := q.setSub c rs.2
    match rs.1 with
    | some x => some (some x, q0)
    | none =>
      if q.empty_lin then some (q0.scanLoop c (q0.subqueues.length - 1))
      else some (none, q0)

/-- Fallback scan of `DChoiceQueue::dequeue_with_info`; the second component of
the result pair is the `head` counter read after the attempted pop (of the
sub-queue that served, or of the originally chosen sub-queue `chosen` when the
scan is exhausted). -/
def DChoiceQueue.scanLoopInfo (q : DChoiceQueue) (chosen ind : Nat) :
    Nat → (Option Nat × Nat) × DChoiceQueue
  | 0 => ((none, (q.getSub chosen).head), q)
  | k + 1 =>
    let ind' := (ind + 1) % q.subqueues.length
    if 0 < (q.getSub ind').len then
      let rs := (q.getSub ind').dequeue
      ((rs.1, rs.2.head), q.setSub ind' rs.2)
    else q.scanLoopInfo chosen ind' k

/-- `DChoiceQueue::dequeue_with_info`: as `dequeue`, but also returns the
number of successful dequeues (`head`) on the sub-queue whose pop was
attempted, read after the operation. -/
def DChoiceQueue.dequeue_with_info (q : DChoiceQueue) (inds : List Nat) :
    Option ((Option Nat × Nat) × DChoiceQueue) :=
  match q.chooseDequeueInd inds with
  | none => none
  | some c =>
    let rs := (q.getSub c).dequeue
    let q0 := q.setSub c rs.2
    match rs.1 with
    | some x => some ((some x, (q0.getSub c).head), q0)
    | none =>
      if q.empty_lin then some (q0.scanLoopInfo c c (q0.subqueues.length - 1))
      else some ((none, (q0.getSub c).head), q0)

/-- `DChoiceQueue::nbr_subqueues`. -/
def DChoiceQueue.nbr_subqueues (q : DChoiceQueue) : Nat := q.subqueues.length

/-- One shard of `DRa` (struct `Partial` in `d_ra.rs`); field-for-field the
same data as `SubQueue`. -/
structure PartialQ where
  head : Nat
  tail : Nat
  fifo : List Nat
deriving DecidableEq, Repr

/-- `Partial::new`. -/
def PartialQ.new : PartialQ := { head := 0, tail := 0, fifo := [] }

/-- `Partial::enqueue`. -/
def PartialQ.enqueue (s : PartialQ) (item : Nat) : PartialQ :=
  { s with tail := s.tail + 1, fifo := s.fifo ++ [item] }

/-- `Partial::dequeue`. -/
def PartialQ.dequeue (s : PartialQ) : Option Nat × PartialQ :=
  match s.fifo with
  | [] => (none, s)
  | x :: rest => (some x, { s with head := s.head + 1, fifo := rest })

/-- `Partial::len`. -/
def PartialQ.len (s : PartialQ) : Nat := s.fifo.length

/-- The d-Ra relaxed queue (struct `DRa` in `d_ra.rs`). -/
structure DRa where
  partials : List PartialQ
  d : Nat
  uniques : Bool
  progress_heuristic : Bool
  empty_lin : Bool
deriving DecidableEq, Repr

/-- `DRa::new`; like `DChoiceQueue::new` it performs no validation. -/
def DRa.new (nbr_partials d : Nat) (uniques progress_heuristic empty_lin : Bool) : DRa :=
  { partials := List.replicate nbr_partials PartialQ.new, d := d, uniques := uniques,
    progress_heuristic := progress_heuristic, empty_lin := empty_lin }

/-- Indexing `self.partials[i]`. -/
def DRa.getPartial (q : DRa) (i : Nat) : PartialQ := q.partials.getD i PartialQ.new

/-- In-place update of `self.partials[i]`. -/
def DRa.setPartial (q : DRa) (i : Nat) (s : PartialQ) : DRa :=
  { q with partials := q.partials.set i s }

/-- Index selection of `DRa::enqueue` over the sampled indices (the result of
`partial_inds`, i.e. the sampler randomness made explicit). -/
def DRa.chooseEnqueueInd (q : DRa) (inds : List Nat) : Option Nat :=
  if q.progress_heuristic then
    minByKeyFirst (fun ind => (q.getPartial ind).tail) inds
  else
    minByKeyFirst (fun ind => (q.getPartial ind).tail - (q.getPartial ind).head) inds

/-- Index selection of `DRa::dequeue`. -/
def DRa.chooseDequeueInd (q : DRa) (inds : List Nat) : Option Nat :=
  if q.progress_heuristic then
    minByKeyFirst (fun ind => (q.getPartial ind).head) inds
  else
    maxByKeyLast (fun ind => (q.getPartial ind).tail - (q.getPartial ind).head) inds

/-- `DRa::enqueue`. -/
def DRa.enqueue (q : DRa) (inds : List Nat) (item : Nat) : Option DRa :=
  match q.chooseEnqueueInd inds with
  | none => none
  | some c => some (q.setPartial c ((q.getPartial c).enqueue item))

/-- Fallback scan of `DRa::dequeue`. -/
def DRa.scanLoop (q : DRa) (ind : Nat) : Nat → Option Nat × DRa
  | 0 => (none, q)
  | k + 1 =>
    let ind' := (ind + 1) % q.partials.length
    if 0 < (q.getPartial ind').len then
      let rs := (q.getPartial ind').dequeue
      (rs.1, q.setPartial ind' rs.2)
    else q.scanLoop ind' k

/-- `DRa::dequeue`. -/
def DRa.dequeue (q : DRa) (inds : List Nat) : Option (Option Nat × DRa) :=
  match q.chooseDequeueInd inds with
  | none => none
  | some c =>
    let rs := (q.getPartial c).dequeue
    let q0 := q.setPartial c rs.2
    match rs.1 with
    | some x => some (some x, q0)
    | none =>
      if q.empty_lin then some (q0.scanLoop c (q0.partials.length - 1))
      else some (none, q0)

/-- The reference tracker (struct `StrictQueue` in `relaxation_simulation.rs`):
a deque of `(id, alive)` entries with lazy tombstones, and the live count
`len`. -/
structure StrictQueue where
  deque : List (Nat × Bool)
  len : Nat
deriving DecidableEq, Repr

/-- `StrictQueue::new`. -/
def StrictQueue.new : StrictQueue := { deque := [], len := 0 }

/-- `StrictQueue::enqueue`: push `(item, true)` at the back, bump `len`. -/
def StrictQueue.enqueue (s : StrictQueue) (item : Nat) : StrictQueue :=
  { deque := s.deque ++ [(item, true)], len := s.len + 1 }

/-- Front-compaction loop of `StrictQueue::relaxed_dequeue`: after popping a
matching front, repeatedly pop leading tombstoned entries. -/
def popTombstones : List (Nat × Bool) → List (Nat × Bool)
  | (_, false) :: rest => popTombstones rest
  | l => l

/-- Forward scan of `StrictQueue::relaxed_dequeue`: find the first entry whose
id is `item`, set its flag to `false`, and return the number of entries with a
`true` flag encountered before it; `none` models the panic when no entry
matches. -/
def scanMark (item : Nat) : List (Nat × Bool) → Option (Nat × List (Nat × Bool))
  | [] => none
  | (other, ex) :: rest =>
    if other = item then some (0, (other, false) :: rest)
    else
      match scanMark item rest with
      | none => none
      | some (r, rest') => some (if ex then r + 1 else r, (other, ex) :: rest')

/-- `StrictQueue::relaxed_dequeue`: returns the rank error of dequeueing
`item`, or `none` for the two fatal paths (the `assert` on `len` and the
not-found panic of the scan). -/
def StrictQueue.relaxed_dequeue (s : StrictQueue) (item : Nat) : Option (Nat × StrictQueue) :=
  if s.len = 0 then none
  else
    match s.deque with
    | [] => none
    | (f, _) :: rest =>
      if f = item then some (0, { deque := popTombstones rest, len := s.len - 1 })
      else
        match scanMark item s.deque with
        | none => none
        | some (r, deque') => some (r, { deque := deque', len := s.len - 1 })

/-- The per-dequeue record emitted by `analyze_extra` (enum `ErrorTag`). -/
inductive ErrorTag where
  | ItemDequeue (rank_error enq_nbr deq_nbr sub_nbr : Nat)
  | EmptyDequeue (rank_error deq_nbr sub_nbr : Nat)
deriving DecidableEq, Repr

/-- `ErrorTag::rank_error`. -/
def ErrorTag.rank_error : ErrorTag → Nat
  | ItemDequeue r _ _ _ => r
  | EmptyDequeue r _ _ => r

/-- Postcondition of the sampler (`subqueue_inds` / `partial_inds`) for a queue
with `n` shards: every draw is a nonempty list of indices below `n`. -/
def ValidOracle (oracle : Nat → List Nat) (n : Nat) : Prop :=
  ∀ k, oracle k ≠ [] ∧ ∀ i ∈ oracle k, i < n

/-- State threaded through the `analyze_simple` driver.  `deq_succ` is a ghost
counter of successful dequeues (used to state conservation); it does not
influence any other field. -/
structure SimState where
  rq : DChoiceQueue
  sq : StrictQueue
  enq_nbr : Nat
  calls : Nat
  deq_succ : Nat
  errors : List Nat
deriving DecidableEq, Repr

/-- Enqueue body of the drivers: enqueue `enq_nbr` into both structures. -/
def enqStep (oracle : Nat → List Nat) (st : SimState) : Option SimState :=
  match st.rq.enqueue (oracle st.calls) st.enq_nbr with
  | none => none
  | some rq' =>
    some { st with rq := rq', sq := st.sq.enqueue st.enq_nbr,
                   enq_nbr := st.enq_nbr + 1, calls := st.calls + 1 }

/-- Dequeue body of `analyze_simple`: a successful relaxed dequeue is scored by
`relaxed_dequeue`, an empty return is scored by the current live count. -/
def deqStep (oracle : Nat → List Nat) (st : SimState) : Option SimState :=
  match st.rq.dequeue (oracle st.calls) with
  | none => none
  | some (some x, rq') =>
    match st.sq.relaxed_dequeue x with
    | none => none
    | some (r, sq') =>
      some { st with rq := rq', sq := sq', calls := st.calls + 1,
                     deq_succ := st.deq_succ + 1, errors := st.errors ++ [r] }
  | some (none, rq') =>
    some { st with rq := rq', calls := st.calls + 1, errors := st.errors ++ [st.sq.len] }

/-- One script operation of `analyze_simple` (`true` = enqueue). -/
def simStep (oracle : Nat → List Nat) (st : SimState) (op : Bool) : Option SimState :=
  if op then enqStep oracle st else deqStep oracle st

/-- The operation loop of `analyze_simple`. -/
def simRun (oracle : Nat → List Nat) : SimState → List Bool → Option SimState
  | st, [] => some st
  | st, op :: rest =>
    match simStep oracle st op with
    | none => none
    | some st' => simRun oracle st' rest

/-- The prefill loop of both drivers: items `0, 1, ...` are enqueued into both
structures (the loop body coincides with `enqStep`). -/
def prefillRun (oracle : Nat → List Nat) : SimState → Nat → Option SimState
  | st, 0 => some st
  | st, k + 1 =>
    match enqStep oracle st with
    | none => none
    | some st' => prefillRun oracle st' k

/-- Initial driver state around an externally constructed (empty) queue. -/
def initSim (q0 : DChoiceQueue) : SimState :=
  { rq := q0, sq := StrictQueue.new, enq_nbr := 0, calls := 0, deq_succ := 0, errors := [] }

/-- The driver `analyze_simple`, with the sampler passed as `oracle`.  The full
final state is returned; the source function returns its `errors` component
(the rank-error list, in operation order). -/
def analyze_simple (q0 : DChoiceQueue) (oracle : Nat → List Nat) (prefill : Nat)
    (operations : List Bool) : Option SimState :=
  match prefillRun oracle (initSim q0) prefill with
  | none => none
  | some st => simRun oracle st operations

/-- State threaded through the `analyze_extra` driver; `deq_nbr` is its
dequeue-attempt counter. -/
structure ExtraState where
  rq : DChoiceQueue
  sq : StrictQueue
  enq_nbr : Nat
  calls : Nat
  deq_nbr : Nat
  tags : List ErrorTag
deriving DecidableEq, Repr

/-- Enqueue body of `analyze_extra`. -/
def extraEnqStep (oracle : Nat → List Nat) (st : ExtraState) : Option ExtraState :=
  match st.rq.enqueue (oracle st.calls) st.enq_nbr with
  | none => none
  | some rq' =>
    some { st with rq := rq', sq := st.sq.enqueue st.enq_nbr,
                   enq_nbr := st.enq_nbr + 1, calls := st.calls + 1 }

/-- Dequeue body of `analyze_extra`: `deq_nbr` is bumped for every attempt, and
the emitted tag carries the extra value of `dequeue_with_info` as `sub_nbr`. -/
def extraDeqStep (oracle : Nat → List Nat) (st : ExtraState) : Option ExtraState :=
  match st.rq.dequeue_with_info (oracle st.calls) with
  | none => none
  | some ((some x, sub_nbr), rq') =>
    match st.sq.relaxed_dequeue x with
    | none => none
    | some (r, sq') =>
      some { st with rq := rq', sq := sq', calls := st.calls + 1, deq_nbr := st.deq_nbr + 1,
                     tags := st.tags ++ [ErrorTag.ItemDequeue r x (st.deq_nbr + 1) sub_nbr] }
  | some ((none, sub_nbr), rq') =>
    some { st with rq := rq', calls := st.calls + 1, deq_nbr := st.deq_nbr + 1,
                   tags := st.tags ++ [ErrorTag.EmptyDequeue st.sq.len (st.deq_nbr + 1) sub_nbr] }

/-- One script operation of `analyze_extra`. -/
def extraStep (oracle : Nat → List Nat) (st : ExtraState) (op : Bool) : Option ExtraState :=
  if op then extraEnqStep oracle st else extraDeqStep oracle st

/-- The operation loop of `analyze_extra`. -/
def extraRun (oracle : Nat → List Nat) : ExtraState → List Bool → Option ExtraState
  | st, [] => some st
  | st, op :: rest =>
    match extraStep oracle st op with
    | none => none
    | some st' => extraRun oracle st' rest

/-- The prefill loop of `analyze_extra`. -/
def extraPrefillRun (oracle : Nat → List Nat) : ExtraState → Nat → Option ExtraState
  | st, 0 => some st
  | st, k + 1 =>
    match extraEnqStep oracle st with
    | none => none
    | some st' => extraPrefillRun oracle st' k

/-- Initial `analyze_extra` state. -/
def initExtra (q0 : DChoiceQueue) : ExtraState :=
  { rq := q0, sq := StrictQueue.new, enq_nbr := 0, calls := 0, deq_nbr := 0, tags := [] }

/-- The driver `analyze_extra`; the source function returns the `tags`
component of the final state. -/
def analyze_extra (q0 : DChoiceQueue) (oracle : Nat → List Nat) (prefill : Nat)
    (operations : List Bool) : Option ExtraState :=
  match extraPrefillRun oracle (initExtra q0) prefill with
  | none => none
  | some st => extraRun oracle st operations

/-- Ids of the still-alive tracker entries, in tracker order. -/
def aliveList (d : List (Nat × Bool)) : List Nat := (d.filter (fun p => p.2)).map Prod.fst

/-- The oldest still-alive entry of the tracker. -/
def oldestAlive (s : StrictQueue) : Option Nat := (aliveList s.deque).head?

/-- Multiset of all items held across a list of sub-queues. -/
def itemsM (l : List SubQueue) : Multiset Nat := (l.map (fun s => (s.fifo : Multiset Nat))).sum

/-- Multiset of alive tracker ids. -/
def aliveM (d : List (Nat × Bool)) : Multiset Nat := (aliveList d : Multiset Nat)

/-- Characterization of Rust `min_by_key` tie-breaking: the chosen index `c`
occurs in the sampled sequence with strictly larger keys before it and no
smaller key after it (first sampled index among the tied minima). -/
def FirstArgmin (key : Nat → Nat) (inds : List Nat) (c : Nat) : Prop :=
  ∃ l1 l2, inds = l1 ++ c :: l2 ∧ (∀ y ∈ l1, key c < key y) ∧ ∀ y ∈ l2, key c ≤ key y

/-- Characterization of Rust `max_by_key` tie-breaking: the chosen index `c`
occurs in the sampled sequence with no larger key before it and strictly
smaller keys after it (last sampled index among the tied maxima). -/
def LastArgmax (key : Nat → Nat) (inds : List Nat) (c : Nat) : Prop :=
  ∃ l1 l2, inds = l1 ++ c :: l2 ∧ (∀ y ∈ l1, key y ≤ key c) ∧ ∀ y ∈ l2, key y < key c

/-- The fold underlying `minByKeyFirst`. -/
def foldMin (key : Nat → Nat) (x : Nat) (xs : List Nat) : Nat :=
  xs.foldl (fun best y => if key y < key best then y else best) x

/-- The fold underlying `maxByKeyLast`. -/
def foldMax (key : Nat → Nat) (x : Nat) (xs : List Nat) : Nat :=
  xs.foldl (fun best y => if key best ≤ key y then y else best) x

lemma minByKeyFirst_cons (key : Nat → Nat) (x : Nat) (xs : List Nat) :
    minByKeyFirst key (x :: xs) = some (foldMin key x xs) := rfl

lemma maxByKeyLast_cons (key : Nat → Nat) (x : Nat) (xs : List Nat) :
    maxByKeyLast key (x :: xs) = some (foldMax key x xs) := rfl

lemma foldMin_cons (key : Nat → Nat) (x y : Nat) (ys : List Nat) :
    foldMin key x (y :: ys) = foldMin key (if key y < key x then y else x) ys := rfl

lemma foldMax_cons (key : Nat → Nat) (x y : Nat) (ys : List Nat) :
    foldMax key x (y :: ys) = foldMax key (if key x ≤ key y then y else x) ys := rfl

lemma foldMin_key_le (key : Nat → Nat) :
    ∀ (xs : List Nat) (x : Nat), key (foldMin key x xs) ≤ key x := by
  intro xs
  induction xs with
  | nil => intro x; exact le_refl _
  | cons y ys ih =>
    intro x
    rw [foldMin_cons]
    refine le_trans (ih _) ?h
    by_cases hc : key y < key x
    · rw [if_pos hc]; exact le_of_lt hc
    · rw [if_neg hc]

lemma key_le_foldMax (key : Nat → Nat) :
    ∀ (xs : List Nat) (x : Nat), key x ≤ key (foldMax key x xs) := by
  intro xs
  induction xs with
  | nil => intro x; exact le_refl _
  | cons y ys ih =>
    intro x
    rw [foldMax_cons]
    refine le_trans ?h (ih _)
    by_cases hc : key x ≤ key y
    · rw [if_pos hc]; exact hc
    · rw [if_neg hc]

lemma foldMin_first (key : Nat → Nat) :
    ∀ (xs : List Nat) (x : Nat), FirstArgmin key (x :: xs) (foldMin key x xs) := by
  intro xs
  induction xs with
  | nil => intro x; exact ⟨[], [], rfl, by simp, by simp⟩
  | cons y ys ih =>
    intro x
    rw [foldMin_cons]
    by_cases hc : key y < key x
    · rw [if_pos hc]
      obtain ⟨l1, l2, hdec, h1, h2⟩ := ih y
      refine ⟨x :: l1, l2, ?hd, ?ha, h2⟩
      · rw [List.cons_append, ← hdec]
      · intro z hz
        rcases List.mem_cons.mp hz with h | h
        · subst h; exact lt_of_le_of_lt (foldMin_key_le key ys y) hc
        · exact h1 z h
    · rw [if_neg hc]
      have hle : key x ≤ key y := Nat.le_of_not_lt hc
      obtain ⟨l1, l2, hdec, h1, h2⟩ := ih x
      cases l1 with
      | nil =>
        rw [List.nil_append] at hdec
        injection hdec with hx hys
        have hd : x :: y :: ys = [] ++ foldMin key x ys :: (y :: ys) := by
          rw [List.nil_append, ← hx]
        have hb : ∀ z ∈ y :: ys, key (foldMin key x ys) ≤ key z := by
          intro z hz
          rcases List.mem_cons.mp hz with h | h
          · subst h; exact le_trans (foldMin_key_le key ys x) hle
          · exact h2 z (hys ▸ h)
        exact ⟨[], y :: ys, hd, by simp, hb⟩
      | cons a l1' =>
        rw [List.cons_append] at hdec
        injection hdec with ha hys
        have hmx : key (foldMin key x ys) < key x := by
          have h' := h1 a (List.mem_cons_self a l1')
          rwa [← ha] at h'
        have hd : x :: y :: ys = (x :: y :: l1') ++ foldMin key x ys :: l2 := by
          rw [List.cons_append, List.cons_append, ← hys]
        have hcond : ∀ z ∈ x :: y :: l1', key (foldMin key x ys) < key z := by
          intro z hz
          rcases List.mem_cons.mp hz with h | h
          · subst h; exact hmx
          rcases List.mem_cons.mp h with h' | h'
          · subst h'; exact lt_of_lt_of_le hmx hle
          · exact h1 z (List.mem_cons_of_mem a h')
        exact ⟨x :: y :: l1', l2, hd, hcond, h2⟩

lemma foldMax_last (key : Nat → Nat) :
    ∀ (xs : List Nat) (x : Nat), LastArgmax key (x :: xs) (foldMax key x xs) := by
  intro xs
  induction xs with
  | nil => intro x; exact ⟨[], [], rfl, by simp, by simp⟩
  | cons y ys ih =>
    intro x
    rw [foldMax_cons]
    by_cases hc : key x ≤ key y
    · rw [if_pos hc]
      obtain ⟨l1, l2, hdec, h1, h2⟩ := ih y
      refine ⟨x :: l1, l2, ?hd, ?ha, h2⟩
      · rw [List.cons_append, ← hdec]
      · intro z hz
        rcases List.mem_cons.mp hz with h | h
        · subst h; exact le_trans hc (key_le_foldMax key ys y)
        · exact h1 z h
    · rw [if_neg hc]
      have hlt : key y < key x := Nat.lt_of_not_le hc
      obtain ⟨l1, l2, hdec, h1, h2⟩ := ih x
      cases l1 with
      | nil =>
        rw [List.nil_append] at hdec
        injection hdec with hx hys
        have hd : x :: y :: ys = [] ++ foldMax key x ys :: (y :: ys) := by
          rw [List.nil_append, ← hx]
        have hb : ∀ z ∈ y :: ys, key z < key (foldMax key x ys) := by
          intro z hz
          rcases List.mem_cons.mp hz with h | h
          · subst h; rw [← hx]; exact hlt
          · exact h2 z (hys ▸ h)
        exact ⟨[], y :: ys, hd, by simp, hb⟩
      | cons a l1' =>
        rw [List.cons_append] at hdec
        injection hdec with ha hys
        have hmx : key x ≤ key (foldMax key x ys) := by
          have h' := h1 a (List.mem_cons_self a l1')
          rwa [← ha] at h'
        have hd : x :: y :: ys = (x :: y :: l1') ++ foldMax key x ys :: l2 := by
          rw [List.cons_append, List.cons_append, ← hys]
        have hcond : ∀ z ∈ x :: y :: l1', key z ≤ key (foldMax key x ys) := by
          intro z hz
          rcases List.mem_cons.mp hz with h | h
          · subst h; exact hmx
          rcases List.mem_cons.mp h with h' | h'
          · subst h'; exact le_trans (le_of_lt hlt) hmx
          · exact h1 z (List.mem_cons_of_mem a h')
        exact ⟨x :: y :: l1', l2, hd, hcond, h2⟩

lemma minByKeyFirst_firstArgmin {key : Nat → Nat} {inds : List Nat} {c : Nat}
    (h : minByKeyFirst key inds = some c) : FirstArgmin key inds c := by
  cases inds with
  | nil => exact absurd h (by simp [minByKeyFirst])
  | cons x xs =>
    rw [minByKeyFirst_cons] at h
    have hc := Option.some.inj h
    rw [← hc]
    exact foldMin_first key xs x

lemma maxByKeyLast_lastArgmax {key : Nat → Nat} {inds : List Nat} {c : Nat}
    (h : maxByKeyLast key inds = some c) : LastArgmax key inds c := by
  cases inds with
  | nil => exact absurd h (by simp [maxByKeyLast])
  | cons x xs =>
    rw [maxByKeyLast_cons] at h
    have hc := Option.some.inj h
    rw [← hc]
    exact foldMax_last key xs x

lemma firstArgmin_mem {key : Nat → Nat} {inds : List Nat} {c : Nat}
    (h : FirstArgmin key inds c) : c ∈ inds := by
  obtain ⟨l1, l2, hdec, -, -⟩ := h
  rw [hdec]
  exact List.mem_append.mpr (Or.inr (List.mem_cons_self _ _))

lemma lastArgmax_mem {key : Nat → Nat} {inds : List Nat} {c : Nat}
    (h : LastArgmax key inds c) : c ∈ inds := by
  obtain ⟨l1, l2, hdec, -, -⟩ := h
  rw [hdec]
  exact List.mem_append.mpr (Or.inr (List.mem_cons_self _ _))

lemma minByKeyFirst_mem {key : Nat → Nat} {inds : List Nat} {c : Nat}
    (h : minByKeyFirst key inds = some c) : c ∈ inds :=
  firstArgmin_mem (minByKeyFirst_firstArgmin h)

lemma maxByKeyLast_mem {key : Nat → Nat} {inds : List Nat} {c : Nat}
    (h : maxByKeyLast key inds = some c) : c ∈ inds :=
  lastArgmax_mem (maxByKeyLast_lastArgmax h)

lemma minByKeyFirst_isSome {key : Nat → Nat} {inds : List Nat} (h : inds ≠ []) :
    ∃ c, minByKeyFirst key inds = some c := by
  cases inds with
  | nil => exact absurd rfl h
  | cons x xs => exact ⟨_, minByKeyFirst_cons key x xs⟩

lemma maxByKeyLast_isSome {key : Nat → Nat} {inds : List Nat} (h : inds ≠ []) :
    ∃ c, maxByKeyLast key inds = some c := by
  cases inds with
  | nil => exact absurd rfl h
  | cons x xs => exact ⟨_, maxByKeyLast_cons key x xs⟩

lemma set_getD_self {α : Type} (d : α) :
    ∀ (l : List α) (i : Nat), i < l.length → l.set i (l.getD i d) = l := by
  intro l
  induction l with
  | nil => intro i h; exact absurd h (by simp)
  | cons a t ih =>
    intro i h
    cases i with
    | zero => rfl
    | succ j =>
      have hj : j < t.length := Nat.lt_of_succ_lt_succ (by simpa using h)
      rw [List.getD_cons_succ]
      show a :: t.set j (t.getD j d) = a :: t
      rw [ih j hj]

lemma itemsM_nil : itemsM [] = 0 := rfl

lemma itemsM_cons (s : SubQueue) (l : List SubQueue) :
    itemsM (s :: l) = (s.fifo : Multiset Nat) + itemsM l := by
  simp [itemsM]

lemma itemsM_replicate : ∀ n : Nat, itemsM (List.replicate n SubQueue.new) = 0 := by
  intro n
  induction n with
  | zero => rfl
  | succ k ih => rw [List.replicate_succ, itemsM_cons, ih]; rfl

lemma itemsM_set :
    ∀ (l : List SubQueue) (i : Nat) (s' : SubQueue), i < l.length →
      itemsM (l.set i s') + ((l.getD i SubQueue.new).fifo : Multiset Nat) =
        itemsM l + (s'.fifo : Multiset Nat) := by
  intro l
  induction l with
  | nil => intro i s' h; exact absurd h (by simp)
  | cons a t ih =>
    intro i s' h
    cases i with
    | zero =>
      simp only [List.set, List.getD_cons_zero, itemsM_cons]
      abel
    | succ j =>
      have hj : j < t.length := Nat.lt_of_succ_lt_succ (by simpa using h)
      simp only [List.set, List.getD_cons_succ, itemsM_cons]
      rw [add_assoc, ih j s' hj, ← add_assoc]

lemma mem_aliveM {x : Nat} {d : List (Nat × Bool)} (h : x ∈ aliveM d) : (x, true) ∈ d := by
  simp only [aliveM, Multiset.mem_coe, aliveList, List.mem_map] at h
  obtain ⟨p, hp, hpx⟩ := h
  have hm := List.mem_filter.mp hp
  have hpt : p.2 = true := by simpa using hm.2
  have : p = (x, true) := by
    cases p with
    | mk a b => simp only [Prod.fst] at hpx; simp only [Prod.snd] at hpt; rw [hpx, hpt]
  exact this ▸ hm.1

lemma aliveList_append (d1 d2 : List (Nat × Bool)) :
    aliveList (d1 ++ d2) = aliveList d1 ++ aliveList d2 := by
  simp [aliveList]

lemma aliveList_cons_true (a : Nat) (d : List (Nat × Bool)) :
    aliveList ((a, true) :: d) = a :: aliveList d := by
  simp [aliveList]

lemma aliveList_cons_false (a : Nat) (d : List (Nat × Bool)) :
    aliveList ((a, false) :: d) = aliveList d := by
  simp [aliveList]

lemma popTombstones_nil : popTombstones [] = [] := rfl

lemma popTombstones_cons_false (a : Nat) (rest : List (Nat × Bool)) :
    popTombstones ((a, false) :: rest) = popTombstones rest := rfl

lemma popTombstones_cons_true (a : Nat) (rest : List (Nat × Bool)) :
    popTombstones ((a, true) :: rest) = (a, true) :: rest := rfl

lemma aliveList_popTombstones : ∀ l : List (Nat × Bool), aliveList (popTombstones l) = aliveList l := by
  intro l
  induction l with
  | nil => rfl
  | cons p rest ih =>
    cases p with
    | mk a b =>
      cases b with
      | false => rw [popTombstones_cons_false, aliveList_cons_false, ih]
      | true => rw [popTombstones_cons_true]

lemma popTombstones_sublist : ∀ l : List (Nat × Bool), (popTombstones l).Sublist l := by
  intro l
  induction l with
  | nil => exact List.Sublist.refl _
  | cons p rest ih =>
    cases p with
    | mk a b =>
      cases b with
      | false => rw [popTombstones_cons_false]; exact ih.trans (List.sublist_cons_self _ _)
      | true => rw [popTombstones_cons_true]

lemma popTombstones_head_alive :
    ∀ (l : List (Nat × Bool)) (p : Nat × Bool), p ∈ (popTombstones l).head? → p.2 = true := by
  intro l
  induction l with
  | nil => intro p hp; simp [popTombstones_nil] at hp
  | cons q rest ih =>
    cases q with
    | mk a b =>
      cases b with
      | false => rw [popTombstones_cons_false]; exact ih
      | true =>
        intro p hp
        rw [popTombstones_cons_true] at hp
        simp only [List.head?, Option.mem_def, Option.some.injEq] at hp
        rw [← hp]

lemma scanMark_cons_self (a : Nat) (b : Bool) (rest : List (Nat × Bool)) :
    scanMark a ((a, b) :: rest) = some (0, (a, false) :: rest) := by
  simp [scanMark]

lemma scanMark_cons_ne {a item : Nat} (b : Bool) (rest : List (Nat × Bool)) (hai : a ≠ item) :
    scanMark item ((a, b) :: rest) =
      match scanMark item rest with
      | none => none
      | some (r, rest') => some (if b then r + 1 else r, (a, b) :: rest') := by
  simp [scanMark, hai]

lemma scanMark_none_iff (item : Nat) :
    ∀ l : List (Nat × Bool), scanMark item l = none ↔ item ∉ l.map Prod.fst := by
  intro l
  induction l with
  | nil => simp [scanMark]
  | cons p rest ih =>
    cases p with
    | mk a b =>
      by_cases hai : a = item
      · subst hai
        rw [scanMark_cons_self]
        simp
      · rw [scanMark_cons_ne b rest hai, List.map_cons]
        constructor
        · intro h hmem
          rcases List.mem_cons.mp hmem with h' | h'
          · exact hai (by simpa using h'.symm)
          · rcases hsm : scanMark item rest with - | pr
            · exact (ih.mp hsm) h'
            · rw [hsm] at h
              cases pr
              simp at h
        · intro hmem
          have hrest : item ∉ rest.map Prod.fst := fun hr =>
            hmem (List.mem_cons.mpr (Or.inr hr))
          rw [ih.mpr hrest]

lemma scanMark_map_fst (item : Nat) :
    ∀ (l : List (Nat × Bool)) (r : Nat) (l' : List (Nat × Bool)),
      scanMark item l = some (r, l') → l'.map Prod.fst = l.map Prod.fst := by
  intro l
  induction l with
  | nil => intro r l' h; simp [scanMark] at h
  | cons p rest ih =>
    cases p with
    | mk a b =>
      intro r l' h
      by_cases hai : a = item
      · subst hai
        rw [scanMark_cons_self] at h
        have h2 := (Prod.mk.injEq _ _ _ _ ▸ Option.some.inj h).2
        rw [← h2]
        simp
      · rw [scanMark_cons_ne b rest hai] at h
        rcases hsm : scanMark item rest with - | pr
        · rw [hsm] at h; simp at h
        · rw [hsm] at h
          cases pr with
          | mk r0 rest' =>
            have h2 := (Prod.mk.injEq _ _ _ _ ▸ Option.some.inj h).2
            rw [← h2, List.map_cons, List.map_cons, ih r0 rest' hsm]

lemma aliveM_cons_true (a : Nat) (d : List (Nat × Bool)) :
    aliveM ((a, true) :: d) = a ::ₘ aliveM d := by
  simp [aliveM, aliveList_cons_true]

lemma aliveM_cons_false (a : Nat) (d : List (Nat × Bool)) :
    aliveM ((a, false) :: d) = aliveM d := by
  simp [aliveM, aliveList_cons_false]

lemma aliveM_popTombstones (l : List (Nat × Bool)) : aliveM (popTombstones l) = aliveM l := by
  simp [aliveM, aliveList_popTombstones]

lemma scanMark_alive (item : Nat) :
    ∀ (l : List (Nat × Bool)) (r : Nat) (l' : List (Nat × Bool)),
      (l.map Prod.fst).Nodup → (item, true) ∈ l → scanMark item l = some (r, l') →
      aliveM l = item ::ₘ aliveM l' := by
  intro l
  induction l with
  | nil => intro r l' _ hm _; simp at hm
  | cons p rest ih =>
    cases p with
    | mk a b =>
      intro r l' hnd hm hsm
      by_cases hai : a = item
      · subst hai
        rw [scanMark_cons_self] at hsm
        have h2 := (Prod.mk.injEq _ _ _ _ ▸ Option.some.inj hsm).2
        have hb : b = true := by
          rcases List.mem_cons.mp hm with h | h
          · exact ((Prod.mk.injEq _ _ _ _).mp h.symm).2
          · exfalso
            have hmm : a ∈ rest.map Prod.fst := List.mem_map.mpr ⟨(a, true), h, rfl⟩
            rw [List.map_cons] at hnd
            exact (List.nodup_cons.mp hnd).1 hmm
        subst hb
        rw [← h2, aliveM_cons_true, aliveM_cons_false]
      · have hmrest : (item, true) ∈ rest := by
          rcases List.mem_cons.mp hm with h | h
          · exact absurd ((Prod.mk.injEq _ _ _ _).mp h).1.symm hai
          · exact h
        rw [scanMark_cons_ne b rest hai] at hsm
        rcases hsm' : scanMark item rest with - | pr
        · rw [hsm'] at hsm; simp at hsm
        · rw [hsm'] at hsm
          cases pr with
          | mk r0 rest' =>
            have h2 := (Prod.mk.injEq _ _ _ _ ▸ Option.some.inj hsm).2
            have hndr : (rest.map Prod.fst).Nodup := by
              rw [List.map_cons] at hnd
              exact (List.nodup_cons.mp hnd).2
            have hIH := ih r0 rest' hndr hmrest hsm'
            rw [← h2]
            cases b with
            | false => rw [aliveM_cons_false, aliveM_cons_false, hIH]
            | true => rw [aliveM_cons_true, aliveM_cons_true, hIH, Multiset.cons_swap]

lemma scanMark_isSome {item : Nat} {l : List (Nat × Bool)} (h : item ∈ l.map Prod.fst) :
    ∃ r l', scanMark item l = some (r, l') := by
  rcases hsm : scanMark item l with - | pr
  · exact absurd h ((scanMark_none_iff item l).mp hsm)
  · cases pr with
    | mk r l' => exact ⟨r, l', rfl⟩

lemma relaxed_dequeue_spec {s : StrictQueue} {x : Nat}
    (hlen : s.len = (aliveList s.deque).length)
    (hfront : ∀ p ∈ s.deque.head?, p.2 = true)
    (hnd : (s.deque.map Prod.fst).Nodup)
    (hmem : (x, true) ∈ s.deque) :
    ∃ r s', s.relaxed_dequeue x = some (r, s') ∧
      s'.len = (aliveList s'.deque).length ∧
      (∀ p ∈ s'.deque.head?, p.2 = true) ∧
      (s'.deque.map Prod.fst).Sublist (s.deque.map Prod.fst) ∧
      aliveM s.deque = x ::ₘ aliveM s'.deque ∧
      s'.len = s.len - 1 ∧ 0 < s.len ∧
      (r = 0 ↔ oldestAlive s = some x) ∧
      (r = 0 → aliveList s'.deque = (aliveList s.deque).tail) := by
  have hxal : x ∈ aliveList s.deque :=
    List.mem_map.mpr ⟨(x, true), List.mem_filter.mpr ⟨hmem, rfl⟩, rfl⟩
  have hpos : 0 < s.len := by
    rw [hlen]
    exact List.length_pos.mpr (List.ne_nil_of_mem hxal)
  have hlen0 : ¬ s.len = 0 := Nat.pos_iff_ne_zero.mp hpos
  rcases hdq : s.deque with - | ⟨⟨f, b⟩, rest⟩
  · rw [hdq] at hmem; simp at hmem
  · have hb : b = true := hfront (f, b) (by rw [hdq]; rfl)
    subst hb
    by_cases hfx : f = x
    · subst hfx
      have heq : s.relaxed_dequeue f = some (0, ⟨popTombstones rest, s.len - 1⟩) := by
        simp [StrictQueue.relaxed_dequeue, hlen0, hdq]
      have h1 : s.len = (aliveList rest).length + 1 := by
        rw [hlen, hdq, aliveList_cons_true, List.length_cons]
      have hold : oldestAlive s = some f := by
        unfold oldestAlive
        rw [hdq, aliveList_cons_true]
        rfl
      refine ⟨0, ⟨popTombstones rest, s.len - 1⟩, heq, ?_, ?_, ?_, ?_, rfl, hpos, ?_, ?_⟩
      · show s.len - 1 = (aliveList (popTombstones rest)).length
        rw [aliveList_popTombstones, h1]
        simp
      · exact popTombstones_head_alive rest
      · show ((popTombstones rest).map Prod.fst).Sublist (((f, true) :: rest).map Prod.fst)
        rw [List.map_cons]
        exact ((popTombstones_sublist rest).map Prod.fst).trans (List.sublist_cons_self _ _)
      · show aliveM ((f, true) :: rest) = f ::ₘ aliveM (popTombstones rest)
        rw [aliveM_cons_true, aliveM_popTombstones]
      · simp [hold]
      · intro _
        show aliveList (popTombstones rest) = (aliveList ((f, true) :: rest)).tail
        rw [aliveList_popTombstones, aliveList_cons_true]
        rfl
    · have hxrest : (x, true) ∈ rest := by
        rcases List.mem_cons.mp (hdq ▸ hmem) with h | h
        · exact absurd ((Prod.mk.injEq _ _ _ _).mp h).1.symm hfx
        · exact h
      have hxids : x ∈ rest.map Prod.fst := List.mem_map.mpr ⟨(x, true), hxrest, rfl⟩
      obtain ⟨r0, rest', hsm⟩ := scanMark_isSome hxids
      have hsmfull' : scanMark x ((f, true) :: rest) = some (r0 + 1, (f, true) :: rest') := by
        rw [scanMark_cons_ne true rest hfx, hsm]
        simp
      have hsmdq : scanMark x s.deque = some (r0 + 1, (f, true) :: rest') := by
        rw [hdq]; exact hsmfull'
      have heq : s.relaxed_dequeue x = some (r0 + 1, ⟨(f, true) :: rest', s.len - 1⟩) := by
        simp only [StrictQueue.relaxed_dequeue, hlen0, if_false, hdq, hfx, ite_false, hsmfull']
      have halive : aliveM s.deque = x ::ₘ aliveM ((f, true) :: rest') :=
        scanMark_alive x s.deque (r0 + 1) ((f, true) :: rest') hnd hmem hsmdq
      have halive' : aliveM ((f, true) :: rest) = x ::ₘ aliveM ((f, true) :: rest') := by
        rw [← hdq]
        exact halive
      have hcard : (aliveList s.deque).length = (aliveList ((f, true) :: rest')).length + 1 := by
        have hc := congrArg Multiset.card halive
        simpa [aliveM, Multiset.coe_card] using hc
      have hids := scanMark_map_fst x s.deque (r0 + 1) ((f, true) :: rest') hsmdq
      have hids' : ((f, true) :: rest').map Prod.fst = ((f, true) :: rest).map Prod.fst := by
        rw [hids, hdq]
      refine ⟨r0 + 1, ⟨(f, true) :: rest', s.len - 1⟩, heq, ?_, ?_, ?_, halive', rfl, hpos, ?_,
        fun hcon => absurd hcon (Nat.succ_ne_zero r0)⟩
      · show s.len - 1 = (aliveList ((f, true) :: rest')).length
        rw [hlen, hcard]
        simp
      · intro p hp
        have hp' : p = (f, true) := by
          simpa [List.head?] using hp.symm
        rw [hp']
      · show (((f, true) :: rest').map Prod.fst).Sublist (((f, true) :: rest).map Prod.fst)
        rw [hids']
      · have hold : oldestAlive s = some f := by
          unfold oldestAlive
          rw [hdq, aliveList_cons_true]
          rfl
        constructor
        · intro h; exact absurd h (Nat.succ_ne_zero r0)
        · intro h
          rw [hold] at h
          exact absurd (Option.some.inj h) hfx

lemma strict_enqueue_spec {s : StrictQueue} {x : Nat}
    (hlen : s.len = (aliveList s.deque).length)
    (hfront : ∀ p ∈ s.deque.head?, p.2 = true)
    (hnd : (s.deque.map Prod.fst).Nodup)
    (hx : x ∉ s.deque.map Prod.fst) :
    (s.enqueue x).len = (aliveList (s.enqueue x).deque).length ∧
    (∀ p ∈ (s.enqueue x).deque.head?, p.2 = true) ∧
    ((s.enqueue x).deque.map Prod.fst).Nodup ∧
    aliveM (s.enqueue x).deque = x ::ₘ aliveM s.deque ∧
    (s.enqueue x).deque.map Prod.fst = s.deque.map Prod.fst ++ [x] ∧
    (s.enqueue x).len = s.len + 1 := by
  have hdeq : (s.enqueue x).deque = s.deque ++ [(x, true)] := rfl
  have halx : aliveList (s.deque ++ [(x, true)]) = aliveList s.deque ++ [x] := by
    rw [aliveList_append]
    rfl
  refine ⟨?_, ?_, ?_, ?_, ?_, rfl⟩
  · show s.len + 1 = (aliveList (s.deque ++ [(x, true)])).length
    rw [halx, List.length_append, hlen]
    rfl
  · intro p hp
    rw [hdeq] at hp
    rcases hdq : s.deque with - | ⟨q, t⟩
    · rw [hdq] at hp
      simp only [List.nil_append, List.head?, Option.mem_def, Option.some.injEq] at hp
      rw [← hp]
    · rw [hdq, List.cons_append] at hp
      simp only [List.head?, Option.mem_def, Option.some.injEq] at hp
      refine hfront p ?_
      rw [hdq]
      simp only [List.head?, Option.mem_def, Option.some.injEq]
      exact hp
  · rw [hdeq, List.map_append]
    have hperm : (s.deque.map Prod.fst ++ [(x, true)].map Prod.fst).Perm
        (x :: s.deque.map Prod.fst) := List.perm_append_singleton x _
    rw [hperm.nodup_iff, List.nodup_cons]
    exact ⟨hx, hnd⟩
  · rw [hdeq]
    show (↑(aliveList (s.deque ++ [(x, true)])) : Multiset Nat) = x ::ₘ aliveM s.deque
    rw [halx, ← Multiset.coe_add]
    show aliveM s.deque + ({x} : Multiset Nat) = x ::ₘ aliveM s.deque
    rw [add_comm, Multiset.singleton_add]
  · rw [hdeq, List.map_append]
    rfl

lemma add_right_cancel_items {A B F : Multiset Nat} {x : Nat} (h : A + F = B + (F + {x})) :
    A = x ::ₘ B := by
  have h2 : A + F = ({x} + B) + F := by rw [h]; abel
  have h3 : A = {x} + B := add_right_cancel h2
  rw [h3, Multiset.singleton_add]

lemma add_pop_cancel_items {A B F : Multiset Nat} {x : Nat} (h : A + (x ::ₘ F) = B + F) :
    B = x ::ₘ A := by
  have h' : A + ({x} + F) = B + F := by rw [Multiset.singleton_add]; exact h
  have h2 : ({x} + A) + F = B + F := by rw [← h']; abel
  have h3 : {x} + A = B := add_right_cancel h2
  rw [← h3, Multiset.singleton_add]

lemma setSub_length (q : DChoiceQueue) (i : Nat) (s : SubQueue) :
    (q.setSub i s).subqueues.length = q.subqueues.length := by
  unfold DChoiceQueue.setSub
  exact List.length_set _ _ _

lemma chooseEnqueueInd_isSome {q : DChoiceQueue} {inds : List Nat} (h : inds ≠ []) :
    ∃ c, q.chooseEnqueueInd inds = some c ∧ c ∈ inds := by
  unfold DChoiceQueue.chooseEnqueueInd
  by_cases hp : q.progress_heuristic = true
  · rw [if_pos hp]
    obtain ⟨c, hc⟩ := @minByKeyFirst_isSome (fun ind => (q.getSub ind).tail) inds h
    exact ⟨c, hc, minByKeyFirst_mem hc⟩
  · rw [if_neg hp]
    obtain ⟨c, hc⟩ :=
      @minByKeyFirst_isSome (fun ind => (q.getSub ind).tail - (q.getSub ind).head) inds h
    exact ⟨c, hc, minByKeyFirst_mem hc⟩

lemma chooseDequeueInd_isSome {q : DChoiceQueue} {inds : List Nat} (h : inds ≠ []) :
    ∃ c, q.chooseDequeueInd inds = some c ∧ c ∈ inds := by
  unfold DChoiceQueue.chooseDequeueInd
  by_cases hp : q.progress_heuristic = true
  · rw [if_pos hp]
    obtain ⟨c, hc⟩ := @minByKeyFirst_isSome (fun ind => (q.getSub ind).head) inds h
    exact ⟨c, hc, minByKeyFirst_mem hc⟩
  · rw [if_neg hp]
    obtain ⟨c, hc⟩ :=
      @maxByKeyLast_isSome (fun ind => (q.getSub ind).tail - (q.getSub ind).head) inds h
    exact ⟨c, hc, maxByKeyLast_mem hc⟩

lemma SubQueue.dequeue_empty {s : SubQueue} (hf : s.fifo = []) : s.dequeue = (none, s) := by
  unfold SubQueue.dequeue
  rw [hf]

lemma SubQueue.dequeue_cons {s : SubQueue} {x : Nat} {rest : List Nat} (hf : s.fifo = x :: rest) :
    s.dequeue = (some x, ⟨s.head + 1, s.tail, rest⟩) := by
  unfold SubQueue.dequeue
  rw [hf]

lemma setSub_self {q : DChoiceQueue} {c : Nat} (hc : c < q.subqueues.length) :
    q.setSub c (q.getSub c) = q := by
  unfold DChoiceQueue.setSub DChoiceQueue.getSub
  rw [set_getD_self SubQueue.new q.subqueues c hc]

lemma dequeue_eq_success {q : DChoiceQueue} {inds : List Nat} {c x : Nat} {rest : List Nat}
    (hch : q.chooseDequeueInd inds = some c) (hf : (q.getSub c).fifo = x :: rest) :
    q.dequeue inds =
      some (some x, q.setSub c ⟨(q.getSub c).head + 1, (q.getSub c).tail, rest⟩) := by
  simp [DChoiceQueue.dequeue, hch, SubQueue.dequeue_cons hf]

lemma dequeue_eq_empty_nofb {q : DChoiceQueue} {inds : List Nat} {c : Nat}
    (hch : q.chooseDequeueInd inds = some c) (hf : (q.getSub c).fifo = [])
    (hc : c < q.subqueues.length) (hel : q.empty_lin = false) :
    q.dequeue inds = some (none, q) := by
  simp [DChoiceQueue.dequeue, hch, SubQueue.dequeue_empty hf, hel, setSub_self hc]

lemma dequeue_eq_empty_fb {q : DChoiceQueue} {inds : List Nat} {c : Nat}
    (hch : q.chooseDequeueInd inds = some c) (hf : (q.getSub c).fifo = [])
    (hc : c < q.subqueues.length) (hel : q.empty_lin = true) :
    q.dequeue inds = some (q.scanLoop c (q.subqueues.length - 1)) := by
  simp [DChoiceQueue.dequeue, hch, SubQueue.dequeue_empty hf, hel, setSub_self hc]

lemma enqueue_spec {q : DChoiceQueue} {inds : List Nat} {item : Nat}
    (hne : inds ≠ []) (hin : ∀ i ∈ inds, i < q.subqueues.length) :
    ∃ q', q.enqueue inds item = some q' ∧ q'.subqueues.length = q.subqueues.length ∧
      itemsM q'.subqueues = item ::ₘ itemsM q.subqueues := by
  obtain ⟨c, hch, hcm⟩ := chooseEnqueueInd_isSome hne
  have hc : c < q.subqueues.length := hin c hcm
  refine ⟨q.setSub c ((q.getSub c).enqueue item), ?_, setSub_length q c _, ?_⟩
  · unfold DChoiceQueue.enqueue
    rw [hch]
  · have hset := itemsM_set q.subqueues c ((q.getSub c).enqueue item) hc
    have hgd : q.subqueues.getD c SubQueue.new = q.getSub c := rfl
    rw [hgd] at hset
    have hef : ((q.getSub c).enqueue item).fifo = (q.getSub c).fifo ++ [item] := rfl
    rw [hef] at hset
    have hco : (((q.getSub c).fifo ++ [item] : List Nat) : Multiset Nat) =
        ((q.getSub c).fifo : Multiset Nat) + {item} := by
      rw [← Multiset.coe_add, Multiset.coe_singleton]
    rw [hco, ← add_assoc] at hset
    have hset2 : itemsM ((q.setSub c ((q.getSub c).enqueue item)).subqueues) +
        ((q.getSub c).fifo : Multiset Nat) =
        itemsM q.subqueues + (((q.getSub c).fifo : Multiset Nat) + {item}) := by
      rw [← add_assoc]
      exact hset
    exact add_right_cancel_items hset2

lemma itemsM_pop {q : DChoiceQueue} {c x : Nat} {rest : List Nat}
    (hc : c < q.subqueues.length) (hf : (q.getSub c).fifo = x :: rest) :
    itemsM q.subqueues =
      x ::ₘ itemsM ((q.setSub c ⟨(q.getSub c).head + 1, (q.getSub c).tail, rest⟩).subqueues) := by
  have hset := itemsM_set q.subqueues c ⟨(q.getSub c).head + 1, (q.getSub c).tail, rest⟩ hc
  have hgd : q.subqueues.getD c SubQueue.new = q.getSub c := rfl
  rw [hgd, hf] at hset
  have hco : ((x :: rest : List Nat) : Multiset Nat) = x ::ₘ (rest : Multiset Nat) :=
    (Multiset.cons_coe x rest).symm
  rw [hco] at hset
  exact add_pop_cancel_items hset

lemma scanLoop_spec : ∀ (k : Nat) (q : DChoiceQueue) (ind : Nat), 0 < q.subqueues.length →
    (q.scanLoop ind k).2.subqueues.length = q.subqueues.length ∧
    ((q.scanLoop ind k).1 = none → (q.scanLoop ind k).2 = q) ∧
    (∀ x, (q.scanLoop ind k).1 = some x →
      itemsM q.subqueues = x ::ₘ itemsM (q.scanLoop ind k).2.subqueues) := by
  intro k
  induction k with
  | zero =>
    intro q ind h
    exact ⟨rfl, fun _ => rfl, fun x hx => by simp [DChoiceQueue.scanLoop] at hx⟩
  | succ n ih =>
    intro q ind h
    have hm : (ind + 1) % q.subqueues.length < q.subqueues.length := Nat.mod_lt _ h
    by_cases hp : 0 < (q.getSub ((ind + 1) % q.subqueues.length)).len
    · have hfifo : ∃ x rest, (q.getSub ((ind + 1) % q.subqueues.length)).fifo = x :: rest := by
        rcases hg : (q.getSub ((ind + 1) % q.subqueues.length)).fifo with - | ⟨x, rest⟩
        · rw [SubQueue.len, hg] at hp; simp at hp
        · exact ⟨x, rest, rfl⟩
      obtain ⟨x, rest, hf⟩ := hfifo
      have hunf : q.scanLoop ind (n + 1) =
          (some x, q.setSub ((ind + 1) % q.subqueues.length)
            ⟨(q.getSub ((ind + 1) % q.subqueues.length)).head + 1,
             (q.getSub ((ind + 1) % q.subqueues.length)).tail, rest⟩) := by
        rw [DChoiceQueue.scanLoop]
        simp only [if_pos hp]
        rw [SubQueue.dequeue_cons hf]
      rw [hunf]
      refine ⟨setSub_length q _ _, fun hcon => by simp at hcon, ?_⟩
      intro y hy
      have hxy : y = x := (Option.some.inj hy).symm
      subst hxy
      exact itemsM_pop hm hf
    · have hunf : q.scanLoop ind (n + 1) = q.scanLoop ((ind + 1) % q.subqueues.length) n := by
        rw [DChoiceQueue.scanLoop]
        simp only [if_neg hp]
      rw [hunf]
      exact ih q ((ind + 1) % q.subqueues.length) h

lemma dequeue_spec {q : DChoiceQueue} {inds : List Nat}
    (hne : inds ≠ []) (hin : ∀ i ∈ inds, i < q.subqueues.length) :
    ∃ res q', q.dequeue inds = some (res, q') ∧
      q'.subqueues.length = q.subqueues.length ∧
      (res = none → itemsM q'.subqueues = itemsM q.subqueues) ∧
      (∀ x, res = some x → itemsM q.subqueues = x ::ₘ itemsM q'.subqueues) := by
  obtain ⟨c, hch, hcm⟩ := chooseDequeueInd_isSome hne
  have hc : c < q.subqueues.length := hin c hcm
  have hpos : 0 < q.subqueues.length := Nat.lt_of_le_of_lt (Nat.zero_le c) hc
  rcases hf : (q.getSub c).fifo with - | ⟨x, rest⟩
  · cases hel : q.empty_lin
    · exact ⟨none, q, dequeue_eq_empty_nofb hch hf hc hel, rfl, fun _ => rfl,
        fun x hx => by simp at hx⟩
    · obtain ⟨hL, hN, hS⟩ := scanLoop_spec (q.subqueues.length - 1) q c hpos
      refine ⟨(q.scanLoop c (q.subqueues.length - 1)).1,
        (q.scanLoop c (q.subqueues.length - 1)).2, ?_, hL, ?_, ?_⟩
      · rw [dequeue_eq_empty_fb hch hf hc hel]
      · intro hres
        rw [hN hres]
      · exact hS
  · refine ⟨some x, q.setSub c ⟨(q.getSub c).head + 1, (q.getSub c).tail, rest⟩,
      dequeue_eq_success hch hf, setSub_length q c _, fun hcon => by simp at hcon, ?_⟩
    intro y hy
    have hxy : y = x := (Option.some.inj hy).symm
    subst hxy
    exact itemsM_pop hc hf

/-- Joint invariant between the relaxed queue and the reference tracker that
the drivers maintain: correct live count, alive front, distinct ids below the
enqueue counter, and the queue holding exactly the alive ids. -/
structure DriverInv (n : Nat) (rq : DChoiceQueue) (sq : StrictQueue) (enq_nbr : Nat) : Prop where
  shards : rq.subqueues.length = n
  len_eq : sq.len = (aliveList sq.deque).length
  front_alive : ∀ p ∈ sq.deque.head?, p.2 = true
  nodup : (sq.deque.map Prod.fst).Nodup
  ids_lt : ∀ i ∈ sq.deque.map Prod.fst, i < enq_nbr
  items_eq : itemsM rq.subqueues = aliveM sq.deque

lemma DriverInv_init (n d : Nat) (u ph el : Bool) :
    DriverInv n (DChoiceQueue.new n d u ph el) StrictQueue.new 0 := by
  constructor
  · exact List.length_replicate n SubQueue.new
  · rfl
  · intro p hp; simp [StrictQueue.new] at hp
  · simp [StrictQueue.new]
  · simp [StrictQueue.new]
  · show itemsM (List.replicate n SubQueue.new) = aliveM []
    rw [itemsM_replicate]
    rfl

lemma inv_enq_step {n : Nat} {rq : DChoiceQueue} {sq : StrictQueue} {k : Nat} {inds : List Nat}
    (hInv : DriverInv n rq sq k) (hne : inds ≠ []) (hin : ∀ i ∈ inds, i < n) :
    ∃ rq', rq.enqueue inds k = some rq' ∧ DriverInv n rq' (sq.enqueue k) (k + 1) := by
  have hin' : ∀ i ∈ inds, i < rq.subqueues.length := by
    rw [hInv.shards]; exact hin
  obtain ⟨rq', he, hlen, hitems⟩ := enqueue_spec hne hin'
  have hknot : k ∉ sq.deque.map Prod.fst := fun hmem => absurd (hInv.ids_lt k hmem) (lt_irrefl k)
  obtain ⟨hl, hf, hn, ha, hm, hlen1⟩ :=
    strict_enqueue_spec hInv.len_eq hInv.front_alive hInv.nodup hknot
  refine ⟨rq', he, ?_, hl, hf, hn, ?_, ?_⟩
  · rw [hlen, hInv.shards]
  · intro i hi
    rw [hm] at hi
    rcases List.mem_append.mp hi with h | h
    · exact Nat.lt_succ_of_lt (hInv.ids_lt i h)
    · have : i = k := by simpa using h
      rw [this]; exact Nat.lt_succ_self k
  · rw [hitems, hInv.items_eq, ha]

lemma inv_deq_step {n : Nat} {rq : DChoiceQueue} {sq : StrictQueue} {k : Nat} {inds : List Nat}
    (hInv : DriverInv n rq sq k) (hne : inds ≠ []) (hin : ∀ i ∈ inds, i < n) :
    ∃ res rq', rq.dequeue inds = some (res, rq') ∧
      (res = none → DriverInv n rq' sq k) ∧
      (∀ x, res = some x → ∃ r sq', sq.relaxed_dequeue x = some (r, sq') ∧
        DriverInv n rq' sq' k ∧ sq'.len = sq.len - 1 ∧ 0 < sq.len ∧
        (r = 0 ↔ oldestAlive sq = some x) ∧
        (r = 0 → aliveList sq'.deque = (aliveList sq.deque).tail)) := by
  have hin' : ∀ i ∈ inds, i < rq.subqueues.length := by
    rw [hInv.shards]; exact hin
  obtain ⟨res, rq', hd, hlen, hnone, hsome⟩ := dequeue_spec hne hin'
  refine ⟨res, rq', hd, ?_, ?_⟩
  · intro h
    refine ⟨by rw [hlen, hInv.shards], hInv.len_eq, hInv.front_alive, hInv.nodup, hInv.ids_lt, ?_⟩
    rw [hnone h, hInv.items_eq]
  · intro x hx
    have hitems := hsome x hx
    have hxin : x ∈ aliveM sq.deque := by
      rw [← hInv.items_eq, hitems]
      exact Multiset.mem_cons_self x _
    have hxdq : (x, true) ∈ sq.deque := mem_aliveM hxin
    obtain ⟨r, sq', heq, hl', hf', hsub, halive, hlen', hpos, hiff, htail⟩ :=
      relaxed_dequeue_spec hInv.len_eq hInv.front_alive hInv.nodup hxdq
    refine ⟨r, sq', heq, ⟨by rw [hlen, hInv.shards], hl', hf', ?_, ?_, ?_⟩, hlen', hpos, hiff,
      htail⟩
    · exact hInv.nodup.sublist hsub
    · intro i hi
      exact hInv.ids_lt i (hsub.mem hi)
    · have hcc : x ::ₘ itemsM rq'.subqueues = x ::ₘ aliveM sq'.deque := by
        rw [← hitems, ← halive, hInv.items_eq]
      exact (Multiset.cons_inj_right x).mp hcc

lemma simStep_inv {n : Nat} {oracle : Nat → List Nat} {st : SimState}
    (hor : ValidOracle oracle n)
    (hInv : DriverInv n st.rq st.sq st.enq_nbr)
    (hcons : st.enq_nbr = st.deq_succ + st.sq.len) (op : Bool) :
    ∃ st', simStep oracle st op = some st' ∧ DriverInv n st'.rq st'.sq st'.enq_nbr ∧
      st'.enq_nbr = st'.deq_succ + st'.sq.len ∧
      st'.enq_nbr = st.enq_nbr + (if op then 1 else 0) := by
  obtain ⟨hne, hin⟩ := hor st.calls
  cases op
  · obtain ⟨res, rq', hd, hnone, hsome⟩ := inv_deq_step hInv hne hin
    cases res with
    | none =>
      refine ⟨⟨rq', st.sq, st.enq_nbr, st.calls + 1, st.deq_succ, st.errors ++ [st.sq.len]⟩,
        ?_, hnone rfl, hcons, by simp⟩
      simp [simStep, deqStep, hd]
    | some x =>
      obtain ⟨r, sq', heq, hInv', hlen', hpos, hiff, htail⟩ := hsome x rfl
      refine ⟨⟨rq', sq', st.enq_nbr, st.calls + 1, st.deq_succ + 1, st.errors ++ [r]⟩,
        ?_, hInv', ?_, by simp⟩
      · simp [simStep, deqStep, hd, heq]
      · show st.enq_nbr = st.deq_succ + 1 + sq'.len
        rw [hlen']
        omega
  · obtain ⟨rq', he, hInv'⟩ := inv_enq_step hInv hne hin
    refine ⟨⟨rq', st.sq.enqueue st.enq_nbr, st.enq_nbr + 1, st.calls + 1, st.deq_succ,
        st.errors⟩, ?_, hInv', ?_, by simp⟩
    · simp [simStep, enqStep, he]
    · show st.enq_nbr + 1 = st.deq_succ + (st.sq.enqueue st.enq_nbr).len
      show st.enq_nbr + 1 = st.deq_succ + (st.sq.len + 1)
      omega

lemma simRun_inv {n : Nat} {oracle : Nat → List Nat} (hor : ValidOracle oracle n) :
    ∀ (ops : List Bool) (st : SimState),
      DriverInv n st.rq st.sq st.enq_nbr → st.enq_nbr = st.deq_succ + st.sq.len →
      ∃ st', simRun oracle st ops = some st' ∧ DriverInv n st'.rq st'.sq st'.enq_nbr ∧
        st'.enq_nbr = st'.deq_succ + st'.sq.len ∧
        st'.enq_nbr = st.enq_nbr + ops.count true := by
  intro ops
  induction ops with
  | nil =>
    intro st hInv hcons
    exact ⟨st, rfl, hInv, hcons, by simp⟩
  | cons op rest ih =>
    intro st hInv hcons
    obtain ⟨st1, hstep, hInv1, hcons1, henq1⟩ := simStep_inv hor hInv hcons op
    obtain ⟨st', hrun, hInv', hcons', henq'⟩ := ih st1 hInv1 hcons1
    refine ⟨st', ?_, hInv', hcons', ?_⟩
    · simp [simRun, hstep, hrun]
    · rw [henq', henq1, List.count_cons]
      cases op
      · simp
      · simp
        omega

lemma prefillRun_inv {n : Nat} {oracle : Nat → List Nat} (hor : ValidOracle oracle n) :
    ∀ (k : Nat) (st : SimState),
      DriverInv n st.rq st.sq st.enq_nbr → st.enq_nbr = st.deq_succ + st.sq.len →
      ∃ st', prefillRun oracle st k = some st' ∧ DriverInv n st'.rq st'.sq st'.enq_nbr ∧
        st'.enq_nbr = st'.deq_succ + st'.sq.len ∧
        st'.enq_nbr = st.enq_nbr + k ∧ st'.deq_succ = st.deq_succ ∧ st'.errors = st.errors := by
  intro k
  induction k with
  | zero =>
    intro st hInv hcons
    exact ⟨st, rfl, hInv, hcons, by simp, rfl, rfl⟩
  | succ m ih =>
    intro st hInv hcons
    obtain ⟨hne, hin⟩ := hor st.calls
    obtain ⟨rq', he, hInv'⟩ := inv_enq_step hInv hne hin
    have hcons1 : st.enq_nbr + 1 = st.deq_succ + (st.sq.enqueue st.enq_nbr).len := by
      show st.enq_nbr + 1 = st.deq_succ + (st.sq.len + 1)
      omega
    obtain ⟨st', hrun, hInv2, hcons2, henq2, hds2, herr2⟩ :=
      ih ⟨rq', st.sq.enqueue st.enq_nbr, st.enq_nbr + 1, st.calls + 1, st.deq_succ, st.errors⟩
        hInv' hcons1
    refine ⟨st', ?_, hInv2, hcons2, ?_, hds2, herr2⟩
    · simp [prefillRun, enqStep, he, hrun]
    · rw [henq2]
      show st.enq_nbr + 1 + m = st.enq_nbr + (m + 1)
      omega

lemma getD_set_self {α : Type} (d : α) :
    ∀ (l : List α) (i : Nat) (a : α), i < l.length → (l.set i a).getD i d = a := by
  intro l
  induction l with
  | nil => intro i a h; exact absurd h (by simp)
  | cons b t ih =>
    intro i a h
    cases i with
    | zero => rfl
    | succ j =>
      have hj : j < t.length := Nat.lt_of_succ_lt_succ (by simpa using h)
      show (t.set j a).getD j d = a
      exact ih j a hj

lemma getSub_setSub {q : DChoiceQueue} {c : Nat} {s : SubQueue} (hc : c < q.subqueues.length) :
    (q.setSub c s).getSub c = s := by
  unfold DChoiceQueue.setSub DChoiceQueue.getSub
  exact getD_set_self SubQueue.new q.subqueues c s hc

lemma dwi_eq_success {q : DChoiceQueue} {inds : List Nat} {c x : Nat} {rest : List Nat}
    (hch : q.chooseDequeueInd inds = some c) (hf : (q.getSub c).fifo = x :: rest)
    (hc : c < q.subqueues.length) :
    q.dequeue_with_info inds = some ((some x, (q.getSub c).head + 1),
      q.setSub c ⟨(q.getSub c).head + 1, (q.getSub c).tail, rest⟩) := by
  simp [DChoiceQueue.dequeue_with_info, hch, SubQueue.dequeue_cons hf, getSub_setSub hc]

lemma dwi_eq_empty_nofb {q : DChoiceQueue} {inds : List Nat} {c : Nat}
    (hch : q.chooseDequeueInd inds = some c) (hf : (q.getSub c).fifo = [])
    (hc : c < q.subqueues.length) (hel : q.empty_lin = false) :
    q.dequeue_with_info inds = some ((none, (q.getSub c).head), q) := by
  simp [DChoiceQueue.dequeue_with_info, hch, SubQueue.dequeue_empty hf, hel, setSub_self hc]

lemma dwi_eq_empty_fb {q : DChoiceQueue} {inds : List Nat} {c : Nat}
    (hch : q.chooseDequeueInd inds = some c) (hf : (q.getSub c).fifo = [])
    (hc : c < q.subqueues.length) (hel : q.empty_lin = true) :
    q.dequeue_with_info inds = some (q.scanLoopInfo c c (q.subqueues.length - 1)) := by
  simp [DChoiceQueue.dequeue_with_info, hch, SubQueue.dequeue_empty hf, hel, setSub_self hc]

lemma scanLoopInfo_corr : ∀ (k : Nat) (q : DChoiceQueue) (chosen ind : Nat),
    (q.scanLoopInfo chosen ind k).1.1 = (q.scanLoop ind k).1 ∧
    (q.scanLoopInfo chosen ind k).2 = (q.scanLoop ind k).2 := by
  intro k
  induction k with
  | zero => intro q chosen ind; exact ⟨rfl, rfl⟩
  | succ n ih =>
    intro q chosen ind
    by_cases hp : 0 < (q.getSub ((ind + 1) % q.subqueues.length)).len
    · constructor
      · rw [DChoiceQueue.scanLoopInfo, DChoiceQueue.scanLoop]
        simp only [if_pos hp]
      · rw [DChoiceQueue.scanLoopInfo, DChoiceQueue.scanLoop]
        simp only [if_pos hp]
    · constructor
      · rw [DChoiceQueue.scanLoopInfo, DChoiceQueue.scanLoop]
        simp only [if_neg hp]
        exact (ih q chosen ((ind + 1) % q.subqueues.length)).1
      · rw [DChoiceQueue.scanLoopInfo, DChoiceQueue.scanLoop]
        simp only [if_neg hp]
        exact (ih q chosen ((ind + 1) % q.subqueues.length)).2

lemma dequeue_with_info_spec {q : DChoiceQueue} {inds : List Nat}
    (hne : inds ≠ []) (hin : ∀ i ∈ inds, i < q.subqueues.length) :
    ∃ res e q', q.dequeue_with_info inds = some ((res, e), q') ∧
      q.dequeue inds = some (res, q') := by
  obtain ⟨c, hch, hcm⟩ := chooseDequeueInd_isSome hne
  have hc : c < q.subqueues.length := hin c hcm
  have hpos : 0 < q.subqueues.length := Nat.lt_of_le_of_lt (Nat.zero_le c) hc
  rcases hf : (q.getSub c).fifo with - | ⟨x, rest⟩
  · cases hel : q.empty_lin
    · exact ⟨none, (q.getSub c).head, q, dwi_eq_empty_nofb hch hf hc hel,
        dequeue_eq_empty_nofb hch hf hc hel⟩
    · obtain ⟨h1, h2⟩ := scanLoopInfo_corr (q.subqueues.length - 1) q c c
      refine ⟨(q.scanLoop c (q.subqueues.length - 1)).1,
        (q.scanLoopInfo c c (q.subqueues.length - 1)).1.2,
        (q.scanLoop c (q.subqueues.length - 1)).2, ?_, ?_⟩
      · rw [dwi_eq_empty_fb hch hf hc hel, ← h1, ← h2]
      · rw [dequeue_eq_empty_fb hch hf hc hel]
  · exact ⟨some x, (q.getSub c).head + 1,
      q.setSub c ⟨(q.getSub c).head + 1, (q.getSub c).tail, rest⟩,
      dwi_eq_success hch hf hc, dequeue_eq_success hch hf⟩

lemma extraEnqStep_inv {n : Nat} {oracle : Nat → List Nat} {st : ExtraState}
    (hne : oracle st.calls ≠ []) (hin : ∀ i ∈ oracle st.calls, i < n)
    (hInv : DriverInv n st.rq st.sq st.enq_nbr) :
    ∃ st', extraEnqStep oracle st = some st' ∧ DriverInv n st'.rq st'.sq st'.enq_nbr ∧
      st'.tags = st.tags := by
  obtain ⟨rq', he, hInv'⟩ := inv_enq_step hInv hne hin
  refine ⟨⟨rq', st.sq.enqueue st.enq_nbr, st.enq_nbr + 1, st.calls + 1, st.deq_nbr, st.tags⟩,
    ?_, hInv', rfl⟩
  simp [extraEnqStep, he]

lemma extraDeqStep_spec {n : Nat} {oracle : Nat → List Nat} {st : ExtraState}
    (hne : oracle st.calls ≠ []) (hin : ∀ i ∈ oracle st.calls, i < n)
    (hInv : DriverInv n st.rq st.sq st.enq_nbr) :
    ∃ st', extraDeqStep oracle st = some st' ∧ DriverInv n st'.rq st'.sq st'.enq_nbr ∧
      ((∃ sub, st'.tags = st.tags ++ [ErrorTag.EmptyDequeue st.sq.len (st.deq_nbr + 1) sub]) ∨
       (∃ r x sub, st'.tags = st.tags ++ [ErrorTag.ItemDequeue r x (st.deq_nbr + 1) sub] ∧
         (r = 0 ↔ oldestAlive st.sq = some x))) := by
  obtain ⟨res, e, rq', hdwi, hdq⟩ :=
    dequeue_with_info_spec hne (by rw [hInv.shards]; exact hin)
  obtain ⟨res2, rq2, hd2, hnone, hsome⟩ := inv_deq_step hInv hne hin
  rw [hdq] at hd2
  have hpair := Option.some.inj hd2
  obtain ⟨hres, hrq⟩ := Prod.mk.injEq _ _ _ _ ▸ hpair
  subst hres
  subst hrq
  cases res with
  | none =>
    have hInv' := hnone rfl
    refine ⟨⟨rq', st.sq, st.enq_nbr, st.calls + 1, st.deq_nbr + 1,
      st.tags ++ [ErrorTag.EmptyDequeue st.sq.len (st.deq_nbr + 1) e]⟩, ?_, hInv',
      Or.inl ⟨e, rfl⟩⟩
    simp [extraDeqStep, hdwi]
  | some x =>
    obtain ⟨r, sq', heq, hInv', hlen', hpos, hiff, htail⟩ := hsome x rfl
    refine ⟨⟨rq', sq', st.enq_nbr, st.calls + 1, st.deq_nbr + 1,
      st.tags ++ [ErrorTag.ItemDequeue r x (st.deq_nbr + 1) e]⟩, ?_, hInv',
      Or.inr ⟨r, x, e, rfl, hiff⟩⟩
    simp [extraDeqStep, hdwi, heq]

lemma extraStep_inv {n : Nat} {oracle : Nat → List Nat} {st : ExtraState}
    (hor : ValidOracle oracle n) (hInv : DriverInv n st.rq st.sq st.enq_nbr) (op : Bool) :
    ∃ st', extraStep oracle st op = some st' ∧ DriverInv n st'.rq st'.sq st'.enq_nbr := by
  obtain ⟨hne, hin⟩ := hor st.calls
  cases op
  · obtain ⟨st', h1, h2, -⟩ := extraDeqStep_spec hne hin hInv
    exact ⟨st', h1, h2⟩
  · obtain ⟨st', h1, h2, -⟩ := extraEnqStep_inv hne hin hInv
    exact ⟨st', h1, h2⟩

lemma extraRun_inv {n : Nat} {oracle : Nat → List Nat} (hor : ValidOracle oracle n) :
    ∀ (ops : List Bool) (st : ExtraState), DriverInv n st.rq st.sq st.enq_nbr →
      ∃ st', extraRun oracle st ops = some st' ∧ DriverInv n st'.rq st'.sq st'.enq_nbr := by
  intro ops
  induction ops with
  | nil => intro st hInv; exact ⟨st, rfl, hInv⟩
  | cons op rest ih =>
    intro st hInv
    obtain ⟨st1, hstep, hInv1⟩ := extraStep_inv hor hInv op
    obtain ⟨st', hrun, hInv'⟩ := ih st1 hInv1
    exact ⟨st', by simp [extraRun, hstep, hrun], hInv'⟩

lemma extraPrefillRun_inv {n : Nat} {oracle : Nat → List Nat} (hor : ValidOracle oracle n) :
    ∀ (k : Nat) (st : ExtraState), DriverInv n st.rq st.sq st.enq_nbr →
      ∃ st', extraPrefillRun oracle st k = some st' ∧ DriverInv n st'.rq st'.sq st'.enq_nbr := by
  intro k
  induction k with
  | zero => intro st hInv; exact ⟨st, rfl, hInv⟩
  | succ m ih =>
    intro st hInv
    obtain ⟨hne, hin⟩ := hor st.calls
    obtain ⟨st1, hstep, hInv1, -⟩ := extraEnqStep_inv hne hin hInv
    obtain ⟨st', hrun, hInv'⟩ := ih st1 hInv1
    exact ⟨st', by simp [extraPrefillRun, hstep, hrun], hInv'⟩

lemma analyze_extra_inv {n d : Nat} {u ph el : Bool} {oracle : Nat → List Nat}
    {prefill : Nat} {ops : List Bool} (hor : ValidOracle oracle n) :
    ∃ st, analyze_extra (DChoiceQueue.new n d u ph el) oracle prefill ops = some st ∧
      DriverInv n st.rq st.sq st.enq_nbr := by
  obtain ⟨st1, hpre, hInv1⟩ :=
    extraPrefillRun_inv hor prefill (initExtra (DChoiceQueue.new n d u ph el))
      (DriverInv_init n d u ph el)
  obtain ⟨st', hrun, hInv'⟩ := extraRun_inv hor ops st1 hInv1
  exact ⟨st', by simp [analyze_extra, hpre, hrun], hInv'⟩

/-- C2: for every configuration, prefill and operation script (with the sampler
postcondition as hypothesis), `analyze_simple` finishes without a contract
violation, and conservation holds: prefill plus the number of enqueue
operations in the script equals the number of successful dequeues plus the
reference tracker's final live count. -/
theorem c2_conservation (n d : Nat) (u ph el : Bool) (oracle : Nat → List Nat)
    (prefill : Nat) (ops : List Bool) (hor : ValidOracle oracle n) :
    ∃ st, analyze_simple (DChoiceQueue.new n d u ph el) oracle prefill ops = some st ∧
      prefill + ops.count true = st.deq_succ + st.sq.len := by
  obtain ⟨st1, hpre, hInv1, hcons1, henq1, hds1, herr1⟩ :=
    prefillRun_inv hor prefill (initSim (DChoiceQueue.new n d u ph el))
      (DriverInv_init n d u ph el) rfl
  obtain ⟨st', hrun, hInv', hcons', henq'⟩ := simRun_inv hor ops st1 hInv1 hcons1
  refine ⟨st', by simp [analyze_simple, hpre, hrun], ?_⟩
  have h1 : st'.enq_nbr = prefill + ops.count true := by
    rw [henq', henq1]
    show (initSim (DChoiceQueue.new n d u ph el)).enq_nbr + prefill + ops.count true =
      prefill + ops.count true
    simp [initSim]
  rw [← h1, hcons']

/-- Witness for C2 at a concrete input: one prefilled item and one dequeue. -/
theorem c2_conservation_witness :
    ∃ st, analyze_simple (DChoiceQueue.new 1 2 true true true) (fun _ => [0]) 1 [false] =
      some st ∧ 1 + [false].count true = st.deq_succ + st.sq.len := by
  refine c2_conservation 1 2 true true true (fun _ => [0]) 1 [false] ?_
  intro k
  constructor
  · simp
  · intro i hi
    simp at hi
    omega

/-- C1: in every `analyze_extra` run, each recorded rank error is nonnegative,
and when the next operation is a dequeue recording `ItemDequeue r x _ _`, the
rank error `r` is zero iff the dequeued item `x` is the current front (oldest
still-alive entry) of the reference tracker at that moment. -/
theorem c1_rank_error_zero_iff_front (n d : Nat) (u ph el : Bool)
    (oracle : Nat → List Nat) (prefill : Nat) (ops : List Bool) (st : ExtraState)
    (hor : ValidOracle oracle n)
    (hrun : analyze_extra (DChoiceQueue.new n d u ph el) oracle prefill ops = some st) :
    (∀ t ∈ st.tags, 0 ≤ t.rank_error) ∧
    (∀ st' r x dn sub, extraStep oracle st false = some st' →
      st'.tags = st.tags ++ [ErrorTag.ItemDequeue r x dn sub] →
      (r = 0 ↔ oldestAlive st.sq = some x)) := by
  obtain ⟨st0, hrun0, hInv⟩ := @analyze_extra_inv n d u ph el oracle prefill ops hor
  have hst : st0 = st := by
    rw [hrun0] at hrun
    exact Option.some.inj hrun
  subst hst
  constructor
  · intro t _
    exact Nat.zero_le _
  · intro st' r x dn sub hstep htags
    obtain ⟨hne, hin⟩ := hor st0.calls
    obtain ⟨st2, hstep2, hInv2, hdisj⟩ := extraDeqStep_spec hne hin hInv
    have hs : st2 = st' := by
      rw [show extraStep oracle st0 false = extraDeqStep oracle st0 from rfl, hstep2] at hstep
      exact Option.some.inj hstep
    subst hs
    rcases hdisj with ⟨sub2, htags2⟩ | ⟨r2, x2, sub2, htags2, hiff⟩
    · rw [htags2] at htags
      have hAB := List.append_cancel_left htags
      simp at hAB
    · rw [htags2] at htags
      have hAB := List.append_cancel_left htags
      have hel2 : ErrorTag.ItemDequeue r2 x2 (st0.deq_nbr + 1) sub2 =
          ErrorTag.ItemDequeue r x dn sub := by
        simpa using hAB
      injection hel2 with h1 h2 h3 h4
      subst h1
      subst h2
      exact hiff

/-- Witness for C1: one enqueue then a dequeue of item 0, which is the front;
the rank error is 0. -/
theorem c1_rank_error_zero_iff_front_witness :
    ∃ st, analyze_extra (DChoiceQueue.new 1 2 true true true) (fun _ => [0]) 0 [true] =
        some st ∧
      ((∀ t ∈ st.tags, 0 ≤ t.rank_error) ∧
       (∀ st' r x dn sub, extraStep (fun _ => [0]) st false = some st' →
         st'.tags = st.tags ++ [ErrorTag.ItemDequeue r x dn sub] →
         (r = 0 ↔ oldestAlive st.sq = some x))) := by
  have hor : ValidOracle (fun _ => [0]) 1 := by
    intro k
    constructor
    · simp
    · intro i hi
      simp at hi
      omega
  have hrun : analyze_extra (DChoiceQueue.new 1 2 true true true) (fun _ => [0]) 0 [true] =
      some ⟨⟨[⟨0, 1, [0]⟩], 2, true, true, true⟩, ⟨[(0, true)], 1⟩, 1, 1, 0, []⟩ := by
    rfl
  refine ⟨_, hrun, ?_⟩
  exact c1_rank_error_zero_iff_front 1 2 true true true (fun _ => [0]) 0 [true] _ hor hrun

/-- C8: with the sampler's randomness made explicit (the oracle standing for a
fixed seed), the `analyze_extra` driver is a pure function of its inputs: two
runs with equal configuration, oracle, prefill and script give identical
outputs. -/
theorem c8_determinism (n1 n2 d1 d2 : Nat) (u1 u2 ph1 ph2 el1 el2 : Bool)
    (o1 o2 : Nat → List Nat) (p1 p2 : Nat) (ops1 ops2 : List Bool)
    (hn : n1 = n2) (hd : d1 = d2) (hu : u1 = u2) (hph : ph1 = ph2) (hel : el1 = el2)
    (ho : o1 = o2) (hp : p1 = p2) (hops : ops1 = ops2) :
    analyze_extra (DChoiceQueue.new n1 d1 u1 ph1 el1) o1 p1 ops1 =
      analyze_extra (DChoiceQueue.new n2 d2 u2 ph2 el2) o2 p2 ops2 := by
  subst hn
  subst hd
  subst hu
  subst hph
  subst hel
  subst ho
  subst hp
  subst hops
  rfl

/-- Witness for C8 at a concrete configuration and script. -/
theorem c8_determinism_witness :
    analyze_extra (DChoiceQueue.new 2 2 false true true) (fun _ => [0]) 1 [true, false] =
      analyze_extra (DChoiceQueue.new 2 2 false true true) (fun _ => [0]) 1 [true, false] :=
  c8_determinism 2 2 2 2 false false true true true true (fun _ => [0]) (fun _ => [0]) 1 1
    [true, false] [true, false] rfl rfl rfl rfl rfl rfl rfl rfl

/-- Modelled from the spec: the configurations that sections 3 and 6 declare
invalid — zero shards, or `uniques` with `d` exceeding the shard count. -/
def specValidConfig (n_shards d : Nat) (uniques : Bool) : Bool :=
  (decide (n_shards ≠ 0)) && (!uniques || decide (d ≤ n_shards))

/-- C6 counterexample: at the spec-invalid configuration `n_shards = 0`,
`uniques = true`, `d = 2`, both constructors return a queue instance instead
of failing. -/
theorem c6_counterexample :
    specValidConfig 0 2 true = false ∧
    DChoiceQueue.new 0 2 true true true = (⟨[], 2, true, true, true⟩ : DChoiceQueue) ∧
    DRa.new 0 2 true true true = (⟨[], 2, true, true, true⟩ : DRa) := by
  decide

/-- C6 amended: construction performs no validation — for every argument
combination, including the spec-invalid ones, `new` returns a queue instance
with exactly `n` empty shards. -/
theorem c6_amended_no_validation (n d : Nat) (u ph el : Bool) :
    (DChoiceQueue.new n d u ph el).subqueues.length = n ∧
    (∀ s ∈ (DChoiceQueue.new n d u ph el).subqueues, s = SubQueue.new) ∧
    (DRa.new n d u ph el).partials.length = n ∧
    (∀ s ∈ (DRa.new n d u ph el).partials, s = PartialQ.new) := by
  refine ⟨List.length_replicate n SubQueue.new, ?_, List.length_replicate n PartialQ.new, ?_⟩
  · intro s hs
    exact List.eq_of_mem_replicate hs
  · intro s hs
    exact List.eq_of_mem_replicate hs

/-- C7 counterexample: after enqueueing 0, 1, 2 and retiring id 1, a second
`relaxed_dequeue` of the already retired id 1 (whose tombstone is still in the
deque) does not abort: it silently returns rank error 1. -/
theorem c7_counterexample :
    (((StrictQueue.new.enqueue 0).enqueue 1).enqueue 2).relaxed_dequeue 1 =
      some (1, (⟨[(0, true), (1, false), (2, true)], 2⟩ : StrictQueue)) ∧
    ((⟨[(0, true), (1, false), (2, true)], 2⟩ : StrictQueue).relaxed_dequeue 1).isSome =
      true := by
  decide

lemma relaxed_dequeue_none_iff (s : StrictQueue) (item : Nat) :
    s.relaxed_dequeue item = none ↔ (s.len = 0 ∨ item ∉ s.deque.map Prod.fst) := by
  by_cases h0 : s.len = 0
  · simp [StrictQueue.relaxed_dequeue, h0]
  · rcases hdq : s.deque with - | ⟨⟨f, b⟩, rest⟩
    · simp [StrictQueue.relaxed_dequeue, h0, hdq]
    · by_cases hfi : f = item
      · simp [StrictQueue.relaxed_dequeue, h0, hdq, hfi]
      · rcases hsm : scanMark item ((f, b) :: rest) with - | pr
        · have hnot := (scanMark_none_iff item _).mp hsm
          simp [StrictQueue.relaxed_dequeue, h0, hdq, hfi, hsm]
          simpa using hnot
        · cases pr with
          | mk r l' =>
            have hmem : item ∈ ((f, b) :: rest).map Prod.fst := by
              by_contra hno
              rw [(scanMark_none_iff item _).mpr hno] at hsm
              exact Option.noConfusion hsm
            simp [StrictQueue.relaxed_dequeue, h0, hdq, hfi, hsm]
            have hmem' : item = f ∨ (item, false) ∈ rest ∨ (item, true) ∈ rest := by
              simpa using hmem
            intro hif hnf
            rcases hmem' with h | h | h
            · exact absurd h hif
            · exact absurd h hnf
            · exact h

lemma scanMark_first_decomp (item : Nat) :
    ∀ (l : List (Nat × Bool)) (r : Nat) (l' : List (Nat × Bool)),
      scanMark item l = some (r, l') →
      ∃ l1 b l2, l = l1 ++ (item, b) :: l2 ∧ item ∉ l1.map Prod.fst ∧
        r = (l1.filter (fun p => p.2)).length ∧ l' = l1 ++ (item, false) :: l2 := by
  intro l
  induction l with
  | nil =>
    intro r l' h
    simp [scanMark] at h
  | cons p rest ih =>
    cases p with
    | mk a eb =>
      intro r l' h
      by_cases hai : a = item
      · subst hai
        rw [scanMark_cons_self] at h
        have hpair := Option.some.inj h
        have h1 : (0 : Nat) = r := (Prod.mk.injEq _ _ _ _ ▸ hpair).1
        have h2 : (a, false) :: rest = l' := (Prod.mk.injEq _ _ _ _ ▸ hpair).2
        refine ⟨[], eb, rest, rfl, by simp, ?_, ?_⟩
        · rw [← h1]
          rfl
        · rw [← h2]
          rfl
      · rw [scanMark_cons_ne eb rest hai] at h
        rcases hsm : scanMark item rest with - | pr
        · rw [hsm] at h
          simp at h
        · rw [hsm] at h
          cases pr with
          | mk r0 rest' =>
            have hpair := Option.some.inj h
            have h1 : (if eb then r0 + 1 else r0) = r := (Prod.mk.injEq _ _ _ _ ▸ hpair).1
            have h2 : (a, eb) :: rest' = l' := (Prod.mk.injEq _ _ _ _ ▸ hpair).2
            obtain ⟨l1, b, l2, hdec, hnotin, hcount, hrest'⟩ := ih r0 rest' hsm
            refine ⟨(a, eb) :: l1, b, l2, ?_, ?_, ?_, ?_⟩
            · rw [hdec]
              rfl
            · intro hmem
              rw [List.map_cons] at hmem
              rcases List.mem_cons.mp hmem with hx | hx
              · exact hai hx.symm
              · exact hnotin hx
            · rw [← h1]
              cases eb
              · show r0 = (((a, false) :: l1).filter (fun p => p.2)).length
                have hff : ((a, false) :: l1).filter (fun p => p.2) =
                    l1.filter (fun p => p.2) := by simp
                rw [hff]
                exact hcount
              · show r0 + 1 = (((a, true) :: l1).filter (fun p => p.2)).length
                have hft : ((a, true) :: l1).filter (fun p => p.2) =
                    (a, true) :: l1.filter (fun p => p.2) := by simp
                rw [hft, List.length_cons, hcount]
            · rw [← h2, hrest']
              rfl

lemma relaxed_dequeue_some_rank {s : StrictQueue} {item r : Nat} {s' : StrictQueue}
    (h : s.relaxed_dequeue item = some (r, s')) :
    ∃ l1 b l2, s.deque = l1 ++ (item, b) :: l2 ∧ item ∉ l1.map Prod.fst ∧
      r = (l1.filter (fun p => p.2)).length := by
  by_cases h0 : s.len = 0
  · rw [(relaxed_dequeue_none_iff s item).mpr (Or.inl h0)] at h
    exact Option.noConfusion h
  · rcases hdq : s.deque with - | ⟨⟨f, b⟩, rest⟩
    · have hnone : s.relaxed_dequeue item = none := by
        simp [StrictQueue.relaxed_dequeue, h0, hdq]
      rw [hnone] at h
      exact Option.noConfusion h
    · by_cases hfi : f = item
      · have heq : s.relaxed_dequeue item =
            some (0, ⟨popTombstones rest, s.len - 1⟩) := by
          simp [StrictQueue.relaxed_dequeue, h0, hdq, hfi]
        rw [heq] at h
        have h1 : (0 : Nat) = r := (Prod.mk.injEq _ _ _ _ ▸ Option.some.inj h).1
        refine ⟨[], b, rest, ?_, by simp, ?_⟩
        · rw [hfi]
          rfl
        · rw [← h1]
          rfl
      · rcases hsm : scanMark item ((f, b) :: rest) with - | pr
        · have hnone : s.relaxed_dequeue item = none := by
            simp [StrictQueue.relaxed_dequeue, h0, hdq, hfi, hsm]
          rw [hnone] at h
          exact Option.noConfusion h
        · cases pr with
          | mk r0 l0 =>
            have heq : s.relaxed_dequeue item = some (r0, ⟨l0, s.len - 1⟩) := by
              simp [StrictQueue.relaxed_dequeue, h0, hdq, hfi, hsm]
            rw [heq] at h
            have h1 : r0 = r := (Prod.mk.injEq _ _ _ _ ▸ Option.some.inj h).1
            obtain ⟨l1, bb, l2, hdec, hnotin, hcount, -⟩ :=
              scanMark_first_decomp item ((f, b) :: rest) r0 l0 hsm
            exact ⟨l1, bb, l2, hdec, hnotin, by rw [← h1, hcount]⟩

/-- C7 amended: `relaxed_dequeue` aborts exactly when the live count is zero
or the id is absent from the deque (never enqueued, or retired and already
compacted away); an id still physically present — alive or tombstoned — is
absorbed, returning as rank error the count of alive entries before the first
matching entry. -/
theorem c7_amended_abort_iff (s : StrictQueue) (item : Nat) :
    (s.relaxed_dequeue item = none ↔ (s.len = 0 ∨ item ∉ s.deque.map Prod.fst)) ∧
    (∀ r s', s.relaxed_dequeue item = some (r, s') →
      ∃ l1 b l2, s.deque = l1 ++ (item, b) :: l2 ∧ item ∉ l1.map Prod.fst ∧
        r = (l1.filter (fun p => p.2)).length) :=
  ⟨relaxed_dequeue_none_iff s item, fun _ _ h => relaxed_dequeue_some_rank h⟩

/-- Witness for C7 amended: dequeueing the tombstoned id 1 from the deque
`[(0, alive), (1, dead), (2, alive)]` is absorbed with rank error 1, the
number of alive entries before the first entry with id 1. -/
theorem c7_amended_abort_iff_witness :
    ∃ l1 b l2,
      (⟨[(0, true), (1, false), (2, true)], 2⟩ : StrictQueue).deque =
        l1 ++ (1, b) :: l2 ∧
      (1 : Nat) ∉ l1.map Prod.fst ∧
      1 = (l1.filter (fun p => p.2)).length :=
  (c7_amended_abort_iff (⟨[(0, true), (1, false), (2, true)], 2⟩ : StrictQueue) 1).2 1
    (⟨[(0, true), (1, false), (2, true)], 1⟩ : StrictQueue) (by decide)

/-- C10 counterexample: enqueue 4, enqueue 5, retire 5, re-enqueue id 5 (now
present and alive again), retire 5 once more — every dequeued id was present
and alive at its call, yet the final state has `len = 1` while two entries
still carry a true alive flag. -/
theorem c10_counterexample :
    ((StrictQueue.new.enqueue 4).enqueue 5).relaxed_dequeue 5 =
      some (1, (⟨[(4, true), (5, false)], 1⟩ : StrictQueue)) ∧
    (5, true) ∈ ((⟨[(4, true), (5, false)], 1⟩ : StrictQueue).enqueue 5).deque ∧
    ((⟨[(4, true), (5, false)], 1⟩ : StrictQueue).enqueue 5).relaxed_dequeue 5 =
      some (1, (⟨[(4, true), (5, false), (5, true)], 1⟩ : StrictQueue)) ∧
    ¬ ((⟨[(4, true), (5, false), (5, true)], 1⟩ : StrictQueue).len =
        ((⟨[(4, true), (5, false), (5, true)], 1⟩ : StrictQueue).deque.filter
          (fun p => p.2)).length) := by
  decide

/-- Tracker states reachable when each enqueued id is not currently in the
deque and each dequeue is for a present-and-alive id. -/
inductive TrackerReach : StrictQueue → Prop where
  | init : TrackerReach StrictQueue.new
  | enq {s : StrictQueue} {x : Nat} : TrackerReach s → x ∉ s.deque.map Prod.fst →
      TrackerReach (s.enqueue x)
  | deq {s s' : StrictQueue} {x r : Nat} : TrackerReach s → (x, true) ∈ s.deque →
      s.relaxed_dequeue x = some (r, s') → TrackerReach s'

lemma trackerReach_aux (s : StrictQueue) (h : TrackerReach s) :
    s.len = (aliveList s.deque).length ∧ (∀ p ∈ s.deque.head?, p.2 = true) ∧
    (s.deque.map Prod.fst).Nodup := by
  induction h with
  | init =>
    refine ⟨rfl, ?_, by simp [StrictQueue.new]⟩
    intro p hp
    simp [StrictQueue.new] at hp
  | enq hr hx ih =>
    obtain ⟨hl, hf, hn⟩ := ih
    obtain ⟨h1, h2, h3, -, -, -⟩ := strict_enqueue_spec hl hf hn hx
    exact ⟨h1, h2, h3⟩
  | deq hr hmem heq ih =>
    obtain ⟨hl, hf, hn⟩ := ih
    obtain ⟨r2, s2, heq2, h1, h2, hsub, -, -, -, -, -⟩ := relaxed_dequeue_spec hl hf hn hmem
    rw [heq2] at heq
    have hpair := Option.some.inj heq
    have hs2 : s2 = _ := (Prod.mk.injEq _ _ _ _ ▸ hpair).2
    rw [← hs2]
    exact ⟨h1, h2, hn.sublist hsub⟩

/-- C10 amended: for tracker states reachable by enqueues of ids not currently
in the deque and dequeues of present-and-alive ids, `len` equals the number of
deque entries with a true alive flag, and a non-empty deque has an alive front
entry. -/
theorem c10_amended_tracker_invariant (s : StrictQueue) (h : TrackerReach s) :
    s.len = (s.deque.filter (fun p => p.2)).length ∧
    (∀ p ∈ s.deque.head?, p.2 = true) := by
  obtain ⟨hl, hf, -⟩ := trackerReach_aux s h
  refine ⟨?_, hf⟩
  rw [hl, aliveList, List.length_map]

/-- Witness for C10 amended at the state reached by one fresh enqueue. -/
theorem c10_amended_tracker_invariant_witness :
    (StrictQueue.new.enqueue 0).len =
      ((StrictQueue.new.enqueue 0).deque.filter (fun p => p.2)).length ∧
    (∀ p ∈ (StrictQueue.new.enqueue 0).deque.head?, p.2 = true) :=
  c10_amended_tracker_invariant (StrictQueue.new.enqueue 0)
    (TrackerReach.enq TrackerReach.init (by simp [StrictQueue.new]))

/-- C3 counterexample: three empty shards, progress heuristic, sampled indices
`[2, 0]` — both shards tie on `tail = 0`, yet the enqueue selects shard 2 (the
first sampled), not the lowest index 0. -/
theorem c3_counterexample :
    ((DChoiceQueue.new 3 2 true true true).getSub 2).tail =
      ((DChoiceQueue.new 3 2 true true true).getSub 0).tail ∧
    (DChoiceQueue.new 3 2 true true true).chooseEnqueueInd [2, 0] = some 2 ∧
    (DChoiceQueue.new 3 2 true true true).enqueue [2, 0] 7 =
      some (⟨[SubQueue.new, SubQueue.new, ⟨0, 1, [7]⟩], 2, true, true, true⟩ : DChoiceQueue) ∧
    (2 : Nat) ≠ 0 := by
  decide

/-- C3 amended: ties are resolved positionally, not by lowest shard index — the
min-keyed selections (enqueue under both heuristics, dequeue under the
progress heuristic) pick the earliest sampled index among the tied minima, and
the max-keyed selection (dequeue under the length heuristic) picks the latest
sampled index among the tied maxima; the same holds for both queue variants. -/
theorem c3_amended_tie_breaking (q : DChoiceQueue) (w : DRa) (inds : List Nat) (c : Nat) :
    (q.chooseEnqueueInd inds = some c →
      FirstArgmin (fun i => if q.progress_heuristic then (q.getSub i).tail
        else (q.getSub i).tail - (q.getSub i).head) inds c) ∧
    (q.progress_heuristic = true → q.chooseDequeueInd inds = some c →
      FirstArgmin (fun i => (q.getSub i).head) inds c) ∧
    (q.progress_heuristic = false → q.chooseDequeueInd inds = some c →
      LastArgmax (fun i => (q.getSub i).tail - (q.getSub i).head) inds c) ∧
    (w.chooseEnqueueInd inds = some c →
      FirstArgmin (fun i => if w.progress_heuristic then (w.getPartial i).tail
        else (w.getPartial i).tail - (w.getPartial i).head) inds c) ∧
    (w.progress_heuristic = true → w.chooseDequeueInd inds = some c →
      FirstArgmin (fun i => (w.getPartial i).head) inds c) ∧
    (w.progress_heuristic = false → w.chooseDequeueInd inds = some c →
      LastArgmax (fun i => (w.getPartial i).tail - (w.getPartial i).head) inds c) := by
  refine ⟨?_, ?_, ?_, ?_, ?_, ?_⟩
  · intro h
    by_cases hp : q.progress_heuristic = true
    · rw [DChoiceQueue.chooseEnqueueInd, if_pos hp] at h
      simpa [hp] using minByKeyFirst_firstArgmin h
    · rw [DChoiceQueue.chooseEnqueueInd, if_neg hp] at h
      have hp' : q.progress_heuristic = false := Bool.not_eq_true _ ▸ hp
      simpa [hp'] using minByKeyFirst_firstArgmin h
  · intro hp h
    rw [DChoiceQueue.chooseDequeueInd, if_pos hp] at h
    exact minByKeyFirst_firstArgmin h
  · intro hp h
    rw [DChoiceQueue.chooseDequeueInd, if_neg (by rw [hp]; exact Bool.false_ne_true)] at h
    exact maxByKeyLast_lastArgmax h
  · intro h
    by_cases hp : w.progress_heuristic = true
    · rw [DRa.chooseEnqueueInd, if_pos hp] at h
      simpa [hp] using minByKeyFirst_firstArgmin h
    · rw [DRa.chooseEnqueueInd, if_neg hp] at h
      have hp' : w.progress_heuristic = false := Bool.not_eq_true _ ▸ hp
      simpa [hp'] using minByKeyFirst_firstArgmin h
  · intro hp h
    rw [DRa.chooseDequeueInd, if_pos hp] at h
    exact minByKeyFirst_firstArgmin h
  · intro hp h
    rw [DRa.chooseDequeueInd, if_neg (by rw [hp]; exact Bool.false_ne_true)] at h
    exact maxByKeyLast_lastArgmax h

/-- Witness for C3 amended: on the tied sample `[2, 0]` the enqueue selection
of the concrete queue from the counterexample is the first sampled index. -/
theorem c3_amended_tie_breaking_witness :
    FirstArgmin (fun i => if (DChoiceQueue.new 3 2 true true true).progress_heuristic
      then ((DChoiceQueue.new 3 2 true true true).getSub i).tail
      else ((DChoiceQueue.new 3 2 true true true).getSub i).tail -
        ((DChoiceQueue.new 3 2 true true true).getSub i).head) [2, 0] 2 :=
  (c3_amended_tie_breaking (DChoiceQueue.new 3 2 true true true)
    (DRa.new 3 2 true true true) [2, 0] 2).1 (by decide)

/-- C4 counterexample: a single-shard queue, two enqueues, two dequeues; the
second successful dequeue returns extra value 2, while the serving shard index
is necessarily 0 (the queue has one shard). -/
theorem c4_counterexample :
    ((DChoiceQueue.new 1 2 false true true).enqueue [0] 10).bind
      (fun q1 => (q1.enqueue [0] 11).bind
        (fun q2 => (q2.dequeue_with_info [0]).bind
          (fun p1 => (p1.2.dequeue_with_info [0]).map (fun p2 => p2.1)))) =
      some (some 11, 2) ∧
    (DChoiceQueue.new 1 2 false true true).nbr_subqueues = 1 ∧ (2 : Nat) ≠ 0 := by
  decide

lemma scanLoopInfo_success :
    ∀ (k : Nat) (q : DChoiceQueue) (chosen ind x e : Nat) (q' : DChoiceQueue),
      q.scanLoopInfo chosen ind k = ((some x, e), q') →
      ∃ j, j < q.subqueues.length ∧ (q.getSub j).fifo.head? = some x ∧
        e = (q.getSub j).head + 1 ∧
        q' = q.setSub j ⟨(q.getSub j).head + 1, (q.getSub j).tail, (q.getSub j).fifo.tail⟩ := by
  intro k
  induction k with
  | zero =>
    intro q chosen ind x e q' h
    rw [DChoiceQueue.scanLoopInfo] at h
    have := (Prod.mk.injEq _ _ _ _ ▸ h).1
    exact absurd (Prod.mk.injEq _ _ _ _ ▸ this).1 (by simp)
  | succ n ih =>
    intro q chosen ind x e q' h
    by_cases hp : 0 < (q.getSub ((ind + 1) % q.subqueues.length)).len
    · have hm : (ind + 1) % q.subqueues.length < q.subqueues.length := by
        rcases Nat.eq_zero_or_pos q.subqueues.length with h0 | h0
        · exfalso
          have : (q.getSub ((ind + 1) % q.subqueues.length)).fifo.length = 0 := by
            have hlen0 : q.subqueues = [] := List.length_eq_zero.mp h0
            show ((q.subqueues.getD _ SubQueue.new).fifo).length = 0
            rw [hlen0]
            rfl
          rw [SubQueue.len] at hp
          omega
        · exact Nat.mod_lt _ h0
      rcases hg : (q.getSub ((ind + 1) % q.subqueues.length)).fifo with - | ⟨y, rest⟩
      · rw [SubQueue.len, hg] at hp
        simp at hp
      · rw [DChoiceQueue.scanLoopInfo] at h
        simp only [if_pos hp] at h
        rw [SubQueue.dequeue_cons hg] at h
        have h1 := (Prod.mk.injEq _ _ _ _ ▸ h).1
        have h2 := (Prod.mk.injEq _ _ _ _ ▸ h).2
        have hx : y = x := Option.some.inj (Prod.mk.injEq _ _ _ _ ▸ h1).1
        have he : e = (q.getSub ((ind + 1) % q.subqueues.length)).head + 1 :=
          ((Prod.mk.injEq _ _ _ _ ▸ h1).2).symm
        refine ⟨(ind + 1) % q.subqueues.length, hm, ?_, he, ?_⟩
        · rw [hg, ← hx]
          rfl
        · rw [← h2, hg]
          rfl
    · rw [DChoiceQueue.scanLoopInfo] at h
      simp only [if_neg hp] at h
      exact ih q chosen ((ind + 1) % q.subqueues.length) x e q' h

/-- C4 amended: for every successful dequeue, the extra value returned by
`dequeue_with_info` (stored as the emitted record's shard field) is the `head`
counter — the cumulative successful-dequeue count — of the sub-queue that
served (popped) the item, read after the pop; it is not the shard index. -/
theorem c4_amended_extra_is_head_count (q : DChoiceQueue) (inds : List Nat) (x e : Nat)
    (q' : DChoiceQueue) (hin : ∀ i ∈ inds, i < q.subqueues.length)
    (h : q.dequeue_with_info inds = some ((some x, e), q')) :
    ∃ j, j < q.subqueues.length ∧ (q.getSub j).fifo.head? = some x ∧
      e = (q.getSub j).head + 1 ∧ e = (q'.getSub j).head ∧
      q' = q.setSub j ⟨(q.getSub j).head + 1, (q.getSub j).tail, (q.getSub j).fifo.tail⟩ := by
  have hne : inds ≠ [] := by
    intro hnil
    rw [hnil] at h
    have : q.chooseDequeueInd [] = none := by
      unfold DChoiceQueue.chooseDequeueInd
      by_cases hp : q.progress_heuristic = true
      · rw [if_pos hp]; rfl
      · rw [if_neg hp]; rfl
    rw [DChoiceQueue.dequeue_with_info, this] at h
    exact Option.noConfusion h
  obtain ⟨c, hch, hcm⟩ := chooseDequeueInd_isSome hne
  have hc : c < q.subqueues.length := hin c hcm
  rcases hf : (q.getSub c).fifo with - | ⟨y, rest⟩
  · cases hel : q.empty_lin
    · rw [dwi_eq_empty_nofb hch hf hc hel] at h
      have h1 := (Prod.mk.injEq _ _ _ _ ▸ Option.some.inj h).1
      exact absurd (Prod.mk.injEq _ _ _ _ ▸ h1).1 (by simp)
    · rw [dwi_eq_empty_fb hch hf hc hel] at h
      obtain ⟨j, hj, hhd, hhe, hq'⟩ :=
        scanLoopInfo_success (q.subqueues.length - 1) q c c x e q' (Option.some.inj h)
      refine ⟨j, hj, hhd, hhe, ?_, hq'⟩
      rw [hq', getSub_setSub hj, hhe]
  · rw [dwi_eq_success hch hf hc] at h
    have hpair := Option.some.inj h
    have h1 := (Prod.mk.injEq _ _ _ _ ▸ hpair).1
    have h2 := (Prod.mk.injEq _ _ _ _ ▸ hpair).2
    have hx : y = x := Option.some.inj (Prod.mk.injEq _ _ _ _ ▸ h1).1
    have he : e = (q.getSub c).head + 1 := ((Prod.mk.injEq _ _ _ _ ▸ h1).2).symm
    refine ⟨c, hc, ?_, he, ?_, ?_⟩
    · rw [hf, ← hx]
      rfl
    · rw [← h2, getSub_setSub hc, he]
    · rw [← h2, hf]
      rfl

/-- Witness for C4 amended: a one-shard queue holding item 10; the dequeue
serves from shard 0 and the extra value is that shard's post-pop head
counter 1. -/
theorem c4_amended_extra_is_head_count_witness :
    ∃ j, j < (⟨[⟨0, 1, [10]⟩], 2, false, true, true⟩ : DChoiceQueue).subqueues.length ∧
      ((⟨[⟨0, 1, [10]⟩], 2, false, true, true⟩ : DChoiceQueue).getSub j).fifo.head? =
        some 10 ∧
      1 = ((⟨[⟨0, 1, [10]⟩], 2, false, true, true⟩ : DChoiceQueue).getSub j).head + 1 ∧
      1 = ((⟨[⟨1, 1, []⟩], 2, false, true, true⟩ : DChoiceQueue).getSub j).head ∧
      (⟨[⟨1, 1, []⟩], 2, false, true, true⟩ : DChoiceQueue) =
        (⟨[⟨0, 1, [10]⟩], 2, false, true, true⟩ : DChoiceQueue).setSub j
          ⟨((⟨[⟨0, 1, [10]⟩], 2, false, true, true⟩ : DChoiceQueue).getSub j).head + 1,
           ((⟨[⟨0, 1, [10]⟩], 2, false, true, true⟩ : DChoiceQueue).getSub j).tail,
           ((⟨[⟨0, 1, [10]⟩], 2, false, true, true⟩ : DChoiceQueue).getSub j).fifo.tail⟩ :=
  c4_amended_extra_is_head_count (⟨[⟨0, 1, [10]⟩], 2, false, true, true⟩ : DChoiceQueue)
    [0] 10 1 (⟨[⟨1, 1, []⟩], 2, false, true, true⟩ : DChoiceQueue) (by decide) (by decide)

lemma scanLoop_all_empty :
    ∀ (k : Nat) (q : DChoiceQueue) (ind : Nat),
      (∀ t, 1 ≤ t → t ≤ k → (q.getSub ((ind + t) % q.subqueues.length)).fifo = []) →
      q.scanLoop ind k = (none, q) := by
  intro k
  induction k with
  | zero => intro q ind _; rfl
  | succ n ih =>
    intro q ind h
    have h1 : (q.getSub ((ind + 1) % q.subqueues.length)).fifo = [] :=
      h 1 (le_refl 1) (Nat.succ_le_succ (Nat.zero_le n))
    have hp : ¬ 0 < (q.getSub ((ind + 1) % q.subqueues.length)).len := by
      rw [SubQueue.len, h1]
      simp
    rw [DChoiceQueue.scanLoop]
    simp only [if_neg hp]
    apply ih
    intro t ht1 htn
    have hh := h (t + 1) (by omega) (by omega)
    have hmod : ((ind + 1) % q.subqueues.length + t) % q.subqueues.length =
        (ind + (t + 1)) % q.subqueues.length := by
      rw [Nat.mod_add_mod]
      congr 1
      omega
    rw [hmod]
    exact hh

lemma scanLoop_none_all_empty :
    ∀ (k : Nat) (q : DChoiceQueue) (ind : Nat),
      (q.scanLoop ind k).1 = none →
      ∀ t, 1 ≤ t → t ≤ k → (q.getSub ((ind + t) % q.subqueues.length)).fifo = [] := by
  intro k
  induction k with
  | zero => intro q ind _ t ht1 ht0; omega
  | succ n ih =>
    intro q ind h t ht1 htn
    by_cases hp : 0 < (q.getSub ((ind + 1) % q.subqueues.length)).len
    · exfalso
      rcases hg : (q.getSub ((ind + 1) % q.subqueues.length)).fifo with - | ⟨y, rest⟩
      · rw [SubQueue.len, hg] at hp
        simp at hp
      · rw [DChoiceQueue.scanLoop] at h
        simp only [if_pos hp] at h
        rw [SubQueue.dequeue_cons hg] at h
        simp at h
    · have h1 : (q.getSub ((ind + 1) % q.subqueues.length)).fifo = [] := by
        rw [SubQueue.len] at hp
        exact List.length_eq_zero.mp (by omega)
      rw [DChoiceQueue.scanLoop] at h
      simp only [if_neg hp] at h
      cases t with
      | zero => omega
      | succ t' =>
        cases t' with
        | zero => simpa using h1
        | succ t'' =>
          have hrec := ih q ((ind + 1) % q.subqueues.length) h (t'' + 1) (by omega) (by omega)
          have hmod : ((ind + 1) % q.subqueues.length + (t'' + 1)) % q.subqueues.length =
              (ind + (t'' + 1 + 1)) % q.subqueues.length := by
            rw [Nat.mod_add_mod]
            congr 1
            omega
          rw [hmod] at hrec
          exact hrec

lemma scanLoop_found :
    ∀ (k : Nat) (q : DChoiceQueue) (ind t : Nat),
      1 ≤ t → t ≤ k →
      (∀ s, 1 ≤ s → s < t → (q.getSub ((ind + s) % q.subqueues.length)).fifo = []) →
      (q.getSub ((ind + t) % q.subqueues.length)).fifo ≠ [] →
      q.scanLoop ind k =
        ((q.getSub ((ind + t) % q.subqueues.length)).fifo.head?,
         q.setSub ((ind + t) % q.subqueues.length)
           ⟨(q.getSub ((ind + t) % q.subqueues.length)).head + 1,
            (q.getSub ((ind + t) % q.subqueues.length)).tail,
            (q.getSub ((ind + t) % q.subqueues.length)).fifo.tail⟩) := by
  intro k
  induction k with
  | zero => intro q ind t ht1 ht0 _ _; omega
  | succ n ih =>
    intro q ind t ht1 htn hemp hne
    cases t with
    | zero => omega
    | succ t' =>
      cases t' with
      | zero =>
        simp only [Nat.zero_add]
        rcases hg : (q.getSub ((ind + 1) % q.subqueues.length)).fifo with - | ⟨y, rest⟩
        · exact absurd hg hne
        · have hp : 0 < (q.getSub ((ind + 1) % q.subqueues.length)).len := by
            rw [SubQueue.len, hg]
            simp
          rw [DChoiceQueue.scanLoop]
          simp only [if_pos hp]
          rw [SubQueue.dequeue_cons hg]
          rfl
      | succ t'' =>
        have h1 : (q.getSub ((ind + 1) % q.subqueues.length)).fifo = [] := by
          have hh := hemp 1 (le_refl 1) (by omega)
          simpa using hh
        have hp : ¬ 0 < (q.getSub ((ind + 1) % q.subqueues.length)).len := by
          rw [SubQueue.len, h1]
          simp
        have hmod : ∀ s : Nat, ((ind + 1) % q.subqueues.length + s) % q.subqueues.length =
            (ind + (s + 1)) % q.subqueues.length := by
          intro s
          rw [Nat.mod_add_mod]
          congr 1
          omega
        have hemp' : ∀ s, 1 ≤ s → s < t'' + 1 →
            (q.getSub (((ind + 1) % q.subqueues.length + s) % q.subqueues.length)).fifo = [] := by
          intro s hs1 hst
          rw [hmod s]
          exact hemp (s + 1) (by omega) (by omega)
        have hne' :
            (q.getSub (((ind + 1) % q.subqueues.length + (t'' + 1)) %
              q.subqueues.length)).fifo ≠ [] := by
          rw [hmod (t'' + 1)]
          exact hne
        have hres := ih q ((ind + 1) % q.subqueues.length) (t'' + 1) (by omega) (by omega)
          hemp' hne'
        rw [DChoiceQueue.scanLoop]
        simp only [if_neg hp]
        rw [hres, hmod (t'' + 1)]

lemma cyclic_cover {L c i : Nat} (hc : c < L) (hi : i < L) (hne : i ≠ c) :
    ∃ t, 1 ≤ t ∧ t ≤ L - 1 ∧ (c + t) % L = i := by
  by_cases hle : c ≤ i
  · refine ⟨i - c, by omega, by omega, ?_⟩
    have hsum : c + (i - c) = i := by omega
    rw [hsum, Nat.mod_eq_of_lt hi]
  · refine ⟨L + i - c, by omega, by omega, ?_⟩
    have hsum : c + (L + i - c) = L + i := by omega
    rw [hsum, Nat.add_mod_left, Nat.mod_eq_of_lt hi]

/-- C5: on a dequeue whose chosen sub-queue is empty: with `empty_lin` false
the operation returns no item immediately (queue unchanged) even if other
shards hold items; with it true, the remaining shards are scanned in fixed
cyclic order starting right after the chosen index, the first non-empty one
has its front popped and returned, and no item is returned exactly when every
shard is empty. -/
theorem c5_empty_fallback (q : DChoiceQueue) (inds : List Nat) (c : Nat)
    (hin : ∀ i ∈ inds, i < q.subqueues.length)
    (hch : q.chooseDequeueInd inds = some c)
    (hf : (q.getSub c).fifo = []) :
    (q.empty_lin = false → q.dequeue inds = some (none, q)) ∧
    (q.empty_lin = true →
      ∃ res q', q.dequeue inds = some (res, q') ∧
        (res = none ↔ ∀ i, i < q.subqueues.length → (q.getSub i).fifo = []) ∧
        (∀ t, 1 ≤ t → t < q.subqueues.length →
          (∀ s, 1 ≤ s → s < t → (q.getSub ((c + s) % q.subqueues.length)).fifo = []) →
          (q.getSub ((c + t) % q.subqueues.length)).fifo ≠ [] →
          res = (q.getSub ((c + t) % q.subqueues.length)).fifo.head? ∧
          q' = q.setSub ((c + t) % q.subqueues.length)
            ⟨(q.getSub ((c + t) % q.subqueues.length)).head + 1,
             (q.getSub ((c + t) % q.subqueues.length)).tail,
             (q.getSub ((c + t) % q.subqueues.length)).fifo.tail⟩)) := by
  have hc : c < q.subqueues.length := by
    by_cases hp : q.progress_heuristic = true
    · exact hin c (minByKeyFirst_mem (by
        rw [DChoiceQueue.chooseDequeueInd, if_pos hp] at hch
        exact hch))
    · exact hin c (maxByKeyLast_mem (by
        rw [DChoiceQueue.chooseDequeueInd, if_neg hp] at hch
        exact hch))
  have hpos : 0 < q.subqueues.length := Nat.lt_of_le_of_lt (Nat.zero_le c) hc
  constructor
  · intro hel
    exact dequeue_eq_empty_nofb hch hf hc hel
  · intro hel
    refine ⟨(q.scanLoop c (q.subqueues.length - 1)).1,
      (q.scanLoop c (q.subqueues.length - 1)).2, ?_, ?_, ?_⟩
    · rw [dequeue_eq_empty_fb hch hf hc hel]
    · constructor
      · intro hres i hi
        by_cases hic : i = c
        · rw [hic]
          exact hf
        · obtain ⟨t, ht1, htL, hmod⟩ := cyclic_cover hc hi hic
          have := scanLoop_none_all_empty (q.subqueues.length - 1) q c hres t ht1 htL
          rw [hmod] at this
          exact this
      · intro hall
        have hsl : q.scanLoop c (q.subqueues.length - 1) = (none, q) := by
          apply scanLoop_all_empty
          intro t ht1 htL
          exact hall _ (Nat.mod_lt _ hpos)
        rw [hsl]
    · intro t ht1 htL hemp hne
      have hsl := scanLoop_found (q.subqueues.length - 1) q c t ht1 (by omega) hemp hne
      rw [hsl]
      exact ⟨rfl, rfl⟩

/-- Witness for C5: three shards, only shard 2 non-empty, chosen shard 0 empty,
fallback active — the scan serves item 7 from shard 2. -/
theorem c5_empty_fallback_witness :
    ((⟨[⟨0, 0, []⟩, ⟨0, 0, []⟩, ⟨0, 1, [7]⟩], 2, true, true, true⟩ : DChoiceQueue).empty_lin =
        false →
      (⟨[⟨0, 0, []⟩, ⟨0, 0, []⟩, ⟨0, 1, [7]⟩], 2, true, true, true⟩ : DChoiceQueue).dequeue
        [0] = some (none,
          (⟨[⟨0, 0, []⟩, ⟨0, 0, []⟩, ⟨0, 1, [7]⟩], 2, true, true, true⟩ : DChoiceQueue))) ∧
    ((⟨[⟨0, 0, []⟩, ⟨0, 0, []⟩, ⟨0, 1, [7]⟩], 2, true, true, true⟩ : DChoiceQueue).empty_lin =
        true →
      ∃ res q',
        (⟨[⟨0, 0, []⟩, ⟨0, 0, []⟩, ⟨0, 1, [7]⟩], 2, true, true, true⟩ : DChoiceQueue).dequeue
          [0] = some (res, q') ∧
        (res = none ↔ ∀ i,
          i < (⟨[⟨0, 0, []⟩, ⟨0, 0, []⟩, ⟨0, 1, [7]⟩], 2, true, true, true⟩ :
            DChoiceQueue).subqueues.length →
          ((⟨[⟨0, 0, []⟩, ⟨0, 0, []⟩, ⟨0, 1, [7]⟩], 2, true, true, true⟩ :
            DChoiceQueue).getSub i).fifo = []) ∧
        (∀ t, 1 ≤ t → t < (⟨[⟨0, 0, []⟩, ⟨0, 0, []⟩, ⟨0, 1, [7]⟩], 2, true, true, true⟩ :
            DChoiceQueue).subqueues.length →
          (∀ s, 1 ≤ s → s < t →
            ((⟨[⟨0, 0, []⟩, ⟨0, 0, []⟩, ⟨0, 1, [7]⟩], 2, true, true, true⟩ :
              DChoiceQueue).getSub ((0 + s) % 3)).fifo = []) →
          ((⟨[⟨0, 0, []⟩, ⟨0, 0, []⟩, ⟨0, 1, [7]⟩], 2, true, true, true⟩ :
            DChoiceQueue).getSub ((0 + t) % 3)).fifo ≠ [] →
          res = ((⟨[⟨0, 0, []⟩, ⟨0, 0, []⟩, ⟨0, 1, [7]⟩], 2, true, true, true⟩ :
            DChoiceQueue).getSub ((0 + t) % 3)).fifo.head? ∧
          q' = (⟨[⟨0, 0, []⟩, ⟨0, 0, []⟩, ⟨0, 1, [7]⟩], 2, true, true, true⟩ :
            DChoiceQueue).setSub ((0 + t) % 3)
            ⟨((⟨[⟨0, 0, []⟩, ⟨0, 0, []⟩, ⟨0, 1, [7]⟩], 2, true, true, true⟩ :
                DChoiceQueue).getSub ((0 + t) % 3)).head + 1,
             ((⟨[⟨0, 0, []⟩, ⟨0, 0, []⟩, ⟨0, 1, [7]⟩], 2, true, true, true⟩ :
                DChoiceQueue).getSub ((0 + t) % 3)).tail,
             ((⟨[⟨0, 0, []⟩, ⟨0, 0, []⟩, ⟨0, 1, [7]⟩], 2, true, true, true⟩ :
                DChoiceQueue).getSub ((0 + t) % 3)).fifo.tail⟩)) :=
  c5_empty_fallback (⟨[⟨0, 0, []⟩, ⟨0, 0, []⟩, ⟨0, 1, [7]⟩], 2, true, true, true⟩ :
    DChoiceQueue) [0] 0 (by decide) (by decide) rfl

/-- Strengthened invariant for a single-shard queue: the lone sub-queue's fifo
coincides, in order, with the alive ids of the tracker, and every recorded
rank error so far is zero. -/
def SimInv9 (st : SimState) : Prop :=
  DriverInv 1 st.rq st.sq st.enq_nbr ∧
  (∃ s, st.rq.subqueues = [s] ∧ s.fifo = aliveList st.sq.deque) ∧
  (∀ e ∈ st.errors, e = 0)

lemma enqStep_inv9 {oracle : Nat → List Nat} {st : SimState} (hor : ValidOracle oracle 1)
    (h : SimInv9 st) : ∃ st', enqStep oracle st = some st' ∧ SimInv9 st' := by
  obtain ⟨hInv, ⟨s, hsub, hsf⟩, herr⟩ := h
  obtain ⟨hne, hin⟩ := hor st.calls
  obtain ⟨rq', he, hInv'⟩ := inv_enq_step hInv hne hin
  obtain ⟨c, hch, hcm⟩ := chooseEnqueueInd_isSome hne
  have hc0 : c = 0 := by
    have := hin c hcm
    omega
  subst hc0
  have he2 : st.rq.enqueue (oracle st.calls) st.enq_nbr =
      some (st.rq.setSub 0 ((st.rq.getSub 0).enqueue st.enq_nbr)) := by
    unfold DChoiceQueue.enqueue
    rw [hch]
  rw [he2] at he
  have hrq' : rq' = st.rq.setSub 0 ((st.rq.getSub 0).enqueue st.enq_nbr) :=
    (Option.some.inj he).symm
  have hget : st.rq.getSub 0 = s := by
    show st.rq.subqueues.getD 0 SubQueue.new = s
    rw [hsub]
    rfl
  refine ⟨⟨rq', st.sq.enqueue st.enq_nbr, st.enq_nbr + 1, st.calls + 1, st.deq_succ,
    st.errors⟩, ?_, hInv', ?_, herr⟩
  · simp [enqStep, he2, hrq']
  · refine ⟨s.enqueue st.enq_nbr, ?_, ?_⟩
    · show rq'.subqueues = [s.enqueue st.enq_nbr]
      rw [hrq']
      show st.rq.subqueues.set 0 ((st.rq.getSub 0).enqueue st.enq_nbr) = _
      rw [hget, hsub]
      rfl
    · show s.fifo ++ [st.enq_nbr] = aliveList (st.sq.deque ++ [(st.enq_nbr, true)])
      rw [aliveList_append, hsf]
      rfl

lemma deqStep_inv9 {oracle : Nat → List Nat} {st : SimState} (hor : ValidOracle oracle 1)
    (h : SimInv9 st) : ∃ st', deqStep oracle st = some st' ∧ SimInv9 st' := by
  obtain ⟨hInv, ⟨s, hsub, hsf⟩, herr⟩ := h
  obtain ⟨hne, hin⟩ := hor st.calls
  obtain ⟨c, hch, hcm⟩ := chooseDequeueInd_isSome hne
  have hc0 : c = 0 := by
    have := hin c hcm
    omega
  subst hc0
  have hget : st.rq.getSub 0 = s := by
    show st.rq.subqueues.getD 0 SubQueue.new = s
    rw [hsub]
    rfl
  have hL : st.rq.subqueues.length = 1 := by
    rw [hsub]
    rfl
  rcases hsfifo : s.fifo with - | ⟨y, rest⟩
  · have hf0 : (st.rq.getSub 0).fifo = [] := by rw [hget, hsfifo]
    have halive : aliveList st.sq.deque = [] := by rw [← hsf, hsfifo]
    have hlen0 : st.sq.len = 0 := by
      rw [hInv.len_eq, halive]
      rfl
    have hdq : st.rq.dequeue (oracle st.calls) = some (none, st.rq) := by
      cases hel : st.rq.empty_lin
      · exact dequeue_eq_empty_nofb hch hf0 (by omega) hel
      · have hfb := dequeue_eq_empty_fb hch hf0 (by omega) hel
        rw [hL] at hfb
        rw [hfb]
        rfl
    refine ⟨⟨st.rq, st.sq, st.enq_nbr, st.calls + 1, st.deq_succ,
      st.errors ++ [st.sq.len]⟩, ?_, hInv, ⟨s, hsub, hsf⟩, ?_⟩
    · simp [deqStep, hdq]
    · intro e he
      rcases List.mem_append.mp he with hm | hm
      · exact herr e hm
      · have he0 : e = st.sq.len := by simpa using hm
        rw [he0, hlen0]
  · have hf : (st.rq.getSub 0).fifo = y :: rest := by rw [hget, hsfifo]
    obtain ⟨res, rq', hd, hnone, hsome⟩ := inv_deq_step hInv hne hin
    have hd2 := dequeue_eq_success hch hf
    rw [hd2] at hd
    have hpair := Option.some.inj hd
    obtain ⟨hres, hrq⟩ := Prod.mk.injEq _ _ _ _ ▸ hpair
    obtain ⟨r, sq', heq, hInv', hlen', hpos, hiff, htail⟩ := hsome y hres.symm
    have hold : oldestAlive st.sq = some y := by
      unfold oldestAlive
      rw [← hsf, hsfifo]
      rfl
    have hr0 : r = 0 := hiff.mpr hold
    subst hr0
    have halive' : aliveList sq'.deque = rest := by
      rw [htail rfl, ← hsf, hsfifo]
      rfl
    refine ⟨⟨rq', sq', st.enq_nbr, st.calls + 1, st.deq_succ + 1, st.errors ++ [0]⟩,
      ?_, hInv', ?_, ?_⟩
    · simp [deqStep, hd2, heq, hrq]
    · refine ⟨⟨s.head + 1, s.tail, rest⟩, ?_, ?_⟩
      · show rq'.subqueues = [(⟨s.head + 1, s.tail, rest⟩ : SubQueue)]
        rw [← hrq]
        show st.rq.subqueues.set 0
          ⟨(st.rq.getSub 0).head + 1, (st.rq.getSub 0).tail, rest⟩ = _
        rw [hget, hsub]
        rfl
      · show rest = aliveList sq'.deque
        rw [halive']
    · intro e he
      rcases List.mem_append.mp he with hm | hm
      · exact herr e hm
      · simpa using hm

lemma simRun_inv9 {oracle : Nat → List Nat} (hor : ValidOracle oracle 1) :
    ∀ (ops : List Bool) (st : SimState), SimInv9 st →
      ∃ st', simRun oracle st ops = some st' ∧ SimInv9 st' := by
  intro ops
  induction ops with
  | nil => intro st h; exact ⟨st, rfl, h⟩
  | cons op rest ih =>
    intro st h
    have hstep : ∃ st1, simStep oracle st op = some st1 ∧ SimInv9 st1 := by
      cases op
      · exact deqStep_inv9 hor h
      · exact enqStep_inv9 hor h
    obtain ⟨st1, h1, h2⟩ := hstep
    obtain ⟨st', hrun, h'⟩ := ih st1 h2
    exact ⟨st', by simp [simRun, h1, hrun], h'⟩

lemma prefillRun_inv9 {oracle : Nat → List Nat} (hor : ValidOracle oracle 1) :
    ∀ (k : Nat) (st : SimState), SimInv9 st →
      ∃ st', prefillRun oracle st k = some st' ∧ SimInv9 st' := by
  intro k
  induction k with
  | zero => intro st h; exact ⟨st, rfl, h⟩
  | succ m ih =>
    intro st h
    obtain ⟨st1, h1, h2⟩ := enqStep_inv9 hor h
    obtain ⟨st', hrun, h'⟩ := ih st1 h2
    exact ⟨st', by simp [prefillRun, h1, hrun], h'⟩

/-- C9: with a single shard (`n_shards = 1`, any `d ≥ 1`), the driver finishes
and every recorded rank error — for successful and empty dequeues alike — is
zero, for every prefill and operation script: the queue behaves as a strict
FIFO. -/
theorem c9_single_shard_zero_rank_errors (d : Nat) (u ph el : Bool)
    (oracle : Nat → List Nat) (prefill : Nat) (ops : List Bool)
    (_hd : 1 ≤ d) (hor : ValidOracle oracle 1) :
    ∃ st, analyze_simple (DChoiceQueue.new 1 d u ph el) oracle prefill ops = some st ∧
      ∀ e ∈ st.errors, e = 0 := by
  have hinit : SimInv9 (initSim (DChoiceQueue.new 1 d u ph el)) := by
    exact ⟨DriverInv_init 1 d u ph el, ⟨SubQueue.new, rfl, rfl⟩, by simp [initSim]⟩
  obtain ⟨st1, hpre, h1⟩ := prefillRun_inv9 hor prefill _ hinit
  obtain ⟨st', hrun, h'⟩ := simRun_inv9 hor ops st1 h1
  exact ⟨st', by simp [analyze_simple, hpre, hrun], h'.2.2⟩

/-- Witness for C9: one shard, two prefilled items, one dequeue. -/
theorem c9_single_shard_zero_rank_errors_witness :
    ∃ st, analyze_simple (DChoiceQueue.new 1 1 false false true) (fun _ => [0]) 2 [false] =
      some st ∧ ∀ e ∈ st.errors, e = 0 := by
  refine c9_single_shard_zero_rank_errors 1 false false true (fun _ => [0]) 2 [false]
    (le_refl 1) ?_
  intro k
  constructor
  · simp
  · intro i hi
    simp at hi
    omega
